import Mathlib

/-!
Verification of the barycentric rational approximation library (`baryrat.py`)
against its natural-language specification.

The numeric type of the source (IEEE doubles / `gmpy2` extended precision) is
modelled by exact rationals `ℚ`; numpy arrays are modelled by `List ℚ` (or by
`Matrix (Fin m) (Fin n) ℚ` where the source works with 2-D arrays).  External
dense linear-algebra routines (QR, SVD, numerical rank), which the spec places
out of scope as an external provider, are passed in as oracle parameters and
constrained only by the properties the algorithms rely on.
-/

set_option maxHeartbeats 1000000
set_option maxRecDepth 4000

namespace Baryrat

/-- Shallow embedding of the `BarycentricRational` class: the stored triple of
interpolation nodes, values and barycentric weights. -/
structure BarycentricRational where
  nodes : List ℚ
  values : List ℚ
  weights : List ℚ
  deriving DecidableEq

/-- Dot product of two coefficient lists (numpy `dot` of two 1-D arrays). -/
def dotl (a b : List ℚ) : ℚ := (List.zipWith (· * ·) a b).sum

/-- Indices `j` with `z[j] = x`, in increasing order: for one evaluation point
this is the list of pairs produced by `np.nonzero(D == 0)` inside
`BarycentricRational.__call__`. -/
def nodeMatches (z : List ℚ) (x : ℚ) : List ℕ :=
  (List.range z.length).filter (fun i => decide (z.getD i 0 = x))

/-- Evaluation of a barycentric rational function at a single point, following
the body of `BarycentricRational.__call__`: the entries of the difference row
`x - z` that are exactly zero are located first; if some node matches, the
result is the stored value of the matching node (the final assignment
`r[node_xi] = fj[node_zi]` leaves the value of the last matching index),
otherwise the rational formula `C.dot(w*f) / C.dot(w)` with `C = 1/(x - z)` is
used. -/
def callPoint (r : BarycentricRational) (x : ℚ) : ℚ :=
  match (nodeMatches r.nodes x).getLast? with
  | some j => r.values.getD j 0
  | none =>
    let C := r.nodes.map (fun zj => 1 / (x - zj))
    dotl C (List.zipWith (· * ·) r.weights r.values) / dotl C r.weights

/-- Evaluation at an array of points (`__call__` with a 1-D array argument).
An empty input returns an empty array of the same shape; otherwise the matrix
computation of the source acts row by row, i.e. pointwise. -/
def callList (r : BarycentricRational) (xs : List ℚ) : List ℚ :=
  if xs.length = 0 then []
  else xs.map (fun x => callPoint r x)

/-- State-passing form of `__call__`: the method body assigns only local
variables (`xv`, `D`, `C`, `r`), never an attribute of `self`, so the
translated method returns the receiver unchanged next to the computed
values. -/
def callListState (r : BarycentricRational) (xs : List ℚ) :
    BarycentricRational × List ℚ :=
  (r, callList r xs)

/-- Translation of `BarycentricRational.reciprocal`: same nodes, values
`1 / values`, weights `weights * values`.  The source has no error path here:
numpy evaluates `1 / 0.0` to a non-finite value (with a warning) instead of
raising; the field convention `1 / 0 = 0` of `ℚ` likewise keeps the function
total. -/
def reciprocal (r : BarycentricRational) : BarycentricRational :=
  ⟨r.nodes, r.values.map (fun v => 1 / v),
    List.zipWith (· * ·) r.weights r.values⟩

section NodeMatch

lemma pairwise_ne_getD {z : List ℚ} (h : z.Pairwise (· ≠ ·)) {i j : ℕ}
    (hi : i < z.length) (hj : j < z.length) (hij : i ≠ j) :
    z.getD i 0 ≠ z.getD j 0 := by
  rw [List.getD_eq_getElem z 0 hi, List.getD_eq_getElem z 0 hj]
  rcases Nat.lt_or_ge i j with hlt | hge
  · exact List.pairwise_iff_getElem.mp h i j hi hj hlt
  · have hlt : j < i := Nat.lt_of_le_of_ne hge (Ne.symm hij)
    exact (List.pairwise_iff_getElem.mp h j i hj hi hlt).symm

lemma filter_range_eq_single (n j : ℕ) (hj : j < n) :
    (List.range n).filter (fun i => decide (i = j)) = [j] := by
  induction n with
  | zero => omega
  | succ n ih =>
    rw [List.range_succ, List.filter_append]
    rcases Nat.lt_or_ge j n with hlt | hge
    · rw [ih hlt]
      have : ((n : ℕ) = j) = False := by
        simp only [eq_iff_iff, iff_false]; omega
      simp [this]
    · have hj' : j = n := by omega
      subst hj'
      have h1 : (List.range j).filter (fun i => decide (i = j)) = [] := by
        apply List.filter_eq_nil_iff.mpr
        intro a ha
        have : a < j := List.mem_range.mp ha
        simp only [decide_eq_true_eq]
        omega
      simp [h1]

lemma nodeMatches_eq_single {z : List ℚ} {x : ℚ} {j : ℕ}
    (hj : j < z.length) (hx : z.getD j 0 = x) (hdist : z.Pairwise (· ≠ ·)) :
    nodeMatches z x = [j] := by
  unfold nodeMatches
  have hcong : ∀ i ∈ List.range z.length,
      (decide (z.getD i 0 = x)) = (decide (i = j)) := by
    intro i hi
    have hi' : i < z.length := List.mem_range.mp hi
    apply decide_eq_decide.mpr
    constructor
    · intro hzi
      by_contra hij
      exact pairwise_ne_getD hdist hi' hj hij (hzi.trans hx.symm)
    · intro hij
      subst hij
      exact hx
  rw [List.filter_congr hcong, filter_range_eq_single _ _ hj]

lemma callPoint_node {r : BarycentricRational} {j : ℕ} {x : ℚ}
    (hj : j < r.nodes.length) (hdist : r.nodes.Pairwise (· ≠ ·))
    (hx : r.nodes.getD j 0 = x) :
    callPoint r x = r.values.getD j 0 := by
  unfold callPoint
  rw [nodeMatches_eq_single hj hx hdist]
  rfl

end NodeMatch

/-- C1: for every `BarycentricRational` (with pairwise-distinct nodes, the
documented validity requirement) and every evaluation point exactly equal to a
node `z_j`, calling the function returns the stored value `f_j` directly,
regardless of the weight `w_j` (including `w_j = 0`); for array input, every
entry equal to a node is replaced by the corresponding stored value. -/
theorem call_at_node (r : BarycentricRational) (j : ℕ) (x : ℚ)
    (hj : j < r.nodes.length) (hdist : r.nodes.Pairwise (· ≠ ·))
    (hx : r.nodes.getD j 0 = x) :
    callPoint r x = r.values.getD j 0 ∧
    ∀ (xs : List ℚ) (i : ℕ), i < xs.length → xs.getD i 0 = x →
      (callList r xs).getD i 0 = r.values.getD j 0 := by
  have hpt : callPoint r x = r.values.getD j 0 := callPoint_node hj hdist hx
  refine ⟨hpt, ?_⟩
  intro xs i hi hxi
  have hne : xs.length ≠ 0 := by omega
  unfold callList
  simp only [hne, if_false]
  have hlen : (xs.map (fun x => callPoint r x)).length = xs.length := by
    simp
  rw [List.getD_eq_getElem _ 0 (by omega : i < (xs.map (fun x => callPoint r x)).length)]
  rw [List.getElem_map]
  rw [← List.getD_eq_getElem xs 0 hi, hxi, hpt]

/-- Concrete instance of `call_at_node`: at node `0`, whose weight is `0`, the
function still returns the stored value `5`. -/
theorem call_at_node_witness :
    (0 < ([(0 : ℚ), 1]).length ∧ ([(0 : ℚ), 1]).Pairwise (· ≠ ·)) ∧
    callPoint ⟨[0, 1], [5, 7], [0, 1]⟩ 0 = 5 := by
  constructor
  · constructor
    · decide
    · decide
  · exact (call_at_node ⟨[0, 1], [5, 7], [0, 1]⟩ 0 0 (by decide) (by decide)
      (by decide)).1.trans (by decide)

section ReciprocalLemmas

lemma recip_lists : ∀ (f w : List ℚ), f.length = w.length →
    (∀ v ∈ f, v ≠ 0) →
    (f.map (fun v => 1 / v)).map (fun v => 1 / v) = f ∧
    List.zipWith (· * ·) (List.zipWith (· * ·) w f) (f.map (fun v => 1 / v)) = w := by
  intro f
  induction f with
  | nil =>
    intro w hlen _
    have : w = [] := List.eq_nil_of_length_eq_zero hlen.symm
    subst this
    exact ⟨rfl, rfl⟩
  | cons v f ih =>
    intro w hlen hnz
    match w with
    | [] => simp at hlen
    | u :: w =>
      have hlen' : f.length = w.length := by
        simpa using hlen
      have hnz' : ∀ x ∈ f, x ≠ 0 := fun x hx => hnz x (List.mem_cons_of_mem _ hx)
      have hv : v ≠ 0 := hnz v (List.mem_cons_self _ _)
      obtain ⟨h1, h2⟩ := ih w hlen' hnz'
      constructor
      · simp only [List.map_cons, List.cons.injEq]
        exact ⟨one_div_one_div v, h1⟩
      · simp only [List.map_cons, List.zipWith_cons_cons, List.cons.injEq]
        refine ⟨?_, h2⟩
        rw [mul_assoc, mul_one_div, div_self hv, mul_one]

end ReciprocalLemmas

/-- C2: for a `BarycentricRational` with no value exactly zero (and the length
invariant enforced by the constructor), taking the reciprocal twice yields the
identity on the stored triple - nodes unchanged, values `1/(1/f) = f`,
weights `(w*f)*(1/f) = w` - and hence a function that evaluates identically
everywhere. -/
theorem reciprocal_involution (r : BarycentricRational)
    (hlen : r.values.length = r.weights.length)
    (hnz : ∀ v ∈ r.values, v ≠ 0) :
    reciprocal (reciprocal r) = r ∧
    ∀ x, callPoint (reciprocal (reciprocal r)) x = callPoint r x := by
  obtain ⟨h1, h2⟩ := recip_lists r.values r.weights hlen hnz
  have hr : reciprocal (reciprocal r) = r := by
    cases r with
    | mk z f w =>
      simp only [reciprocal, BarycentricRational.mk.injEq, true_and]
      exact ⟨h1, h2⟩
  exact ⟨hr, fun x => by rw [hr]⟩

/-- Concrete instance of `reciprocal_involution` at a two-node function with
nonzero values. -/
theorem reciprocal_involution_witness :
    ((∀ v ∈ ([(2 : ℚ), 4]), v ≠ 0) ∧
      ([(2 : ℚ), 4]).length = ([(1 : ℚ), 3]).length) ∧
    reciprocal (reciprocal ⟨[0, 1], [2, 4], [1, 3]⟩) = ⟨[0, 1], [2, 4], [1, 3]⟩ := by
  refine ⟨⟨by decide, by decide⟩, ?_⟩
  exact (reciprocal_involution ⟨[0, 1], [2, 4], [1, 3]⟩ (by decide) (by decide)).1

/-- C3 counterexample: on a values array containing an exact zero,
`reciprocal` does not raise.  The source method has no error path - numpy
division by zero produces a non-finite entry plus a warning, not an
exception - and still returns a new function carrying the documented nodes
and weights `weights * values`. -/
theorem reciprocal_zero_value_returns :
    (reciprocal ⟨[0, 1], [0, 2], [1, 1]⟩).nodes = [0, 1] ∧
    (reciprocal ⟨[0, 1], [0, 2], [1, 1]⟩).weights = [0, 2] := by
  constructor
  · rfl
  · show List.zipWith (· * ·) [(1 : ℚ), 1] [0, 2] = [0, 2]
    norm_num

/-- C3 amended: `reciprocal` never raises an error; for inputs with all values
nonzero it returns a new `BarycentricRational` with the same nodes, entrywise
values `1/values` and weights `weights * values`, and the resulting values are
again all nonzero. -/
theorem reciprocal_spec (r : BarycentricRational)
    (hlen : r.values.length = r.weights.length)
    (hnz : ∀ v ∈ r.values, v ≠ 0) :
    (reciprocal r).nodes = r.nodes ∧
    (reciprocal r).values.length = r.values.length ∧
    (∀ j, j < r.values.length →
      (reciprocal r).values.getD j 0 = 1 / r.values.getD j 0 ∧
      (reciprocal r).weights.getD j 0 = r.weights.getD j 0 * r.values.getD j 0) ∧
    ∀ v ∈ (reciprocal r).values, v ≠ 0 := by
  have hvl : (reciprocal r).values.length = r.values.length := by
    simp [reciprocal]
  refine ⟨rfl, hvl, ?_, ?_⟩
  · intro j hj
    constructor
    · rw [List.getD_eq_getElem _ 0 (by simpa [reciprocal] using hj),
        List.getD_eq_getElem _ 0 hj]
      simp [reciprocal]
    · have hj' : j < (List.zipWith (· * ·) r.weights r.values).length := by
        simp only [List.length_zipWith]
        omega
      rw [show (reciprocal r).weights = List.zipWith (· * ·) r.weights r.values from rfl]
      rw [List.getD_eq_getElem _ 0 hj',
        List.getD_eq_getElem _ 0 (by omega : j < r.weights.length),
        List.getD_eq_getElem _ 0 hj]
      simp
  · intro v hv
    simp only [reciprocal, List.mem_map] at hv
    obtain ⟨u, hu, rfl⟩ := hv
    exact one_div_ne_zero (hnz u hu)

/-- Concrete instance of `reciprocal_spec`. -/
theorem reciprocal_spec_witness :
    ((∀ v ∈ ([(2 : ℚ)]), v ≠ 0) ∧ ([(2 : ℚ)]).length = ([(3 : ℚ)]).length) ∧
    (reciprocal ⟨[0], [2], [3]⟩).values.getD 0 0 = 1 / 2 ∧
    (reciprocal ⟨[0], [2], [3]⟩).weights.getD 0 0 = 6 := by
  have h := reciprocal_spec ⟨[0], [2], [3]⟩ (by decide) (by decide)
  refine ⟨⟨by decide, by decide⟩, ?_, ?_⟩
  · rw [(h.2.2.1 0 (by decide)).1]
    norm_num [List.getD_cons_zero]
  · rw [(h.2.2.1 0 (by decide)).2]
    norm_num [List.getD_cons_zero]

/-- C9: calling a `BarycentricRational` on an empty array returns an empty
array (of the same shape) without raising; the output length always equals
the input length; and the call never mutates the stored triple - the
state-passing form of the method returns the receiver unchanged. -/
theorem call_empty_and_pure (r : BarycentricRational) :
    callList r [] = [] ∧
    (∀ xs, (callList r xs).length = xs.length) ∧
    ∀ xs, (callListState r xs).1 = r ∧ (callListState r xs).2 = callList r xs := by
  refine ⟨rfl, ?_, fun xs => ⟨rfl, rfl⟩⟩
  intro xs
  unfold callList
  by_cases h : xs.length = 0
  · simp [h]
  · simp [h]

/-- Moment sum `Σ values * weights * nodes ^ defect` tested by
`BarycentricRational.degree_numer`. -/
def momentNumer (r : BarycentricRational) (d : ℕ) : ℚ :=
  (List.zipWith (· * ·) (List.zipWith (· * ·) r.values r.weights)
    (r.nodes.map (fun z => z ^ d))).sum

/-- Moment sum `Σ weights * nodes ^ defect` tested by
`BarycentricRational.degree_denom`. -/
def momentDenom (r : BarycentricRational) (d : ℕ) : ℚ :=
  (List.zipWith (· * ·) r.weights (r.nodes.map (fun z => z ^ d))).sum

/-- Translation of `BarycentricRational.degree_numer`: with `N = len(nodes)-1`,
scan `defect = 0, 1, ..., N-1` and return `N - defect` at the first defect
whose moment sum exceeds `tol` in absolute value, else `0`. -/
def degree_numer (r : BarycentricRational) (tol : ℚ) : ℕ :=
  match (List.range (r.nodes.length - 1)).find?
      (fun d => decide (tol < |momentNumer r d|)) with
  | some d => (r.nodes.length - 1) - d
  | none => 0

/-- Translation of `BarycentricRational.degree_denom`, analogous to
`degree_numer` but with the value factors omitted from the moment sum. -/
def degree_denom (r : BarycentricRational) (tol : ℚ) : ℕ :=
  match (List.range (r.nodes.length - 1)).find?
      (fun d => decide (tol < |momentDenom r d|)) with
  | some d => (r.nodes.length - 1) - d
  | none => 0

section FindRange

lemma find?_range_eq_some {p : ℕ → Bool} {N d : ℕ} (hd : d < N)
    (h1 : ∀ e, e < d → ¬ p e = true) (h2 : p d = true) :
    (List.range N).find? p = some d := by
  induction N with
  | zero => omega
  | succ N ih =>
    rw [List.range_succ, List.find?_append]
    rcases Nat.lt_or_ge d N with hlt | hge
    · rw [ih hlt]
      rfl
    · have hdN : d = N := by omega
      subst hdN
      have hnone : (List.range d).find? p = none := by
        rw [List.find?_eq_none]
        intro x hx
        exact h1 x (List.mem_range.mp hx)
      rw [hnone]
      simp [List.find?_cons, h2]

lemma find?_range_eq_none {p : ℕ → Bool} {N : ℕ}
    (h : ∀ e, e < N → ¬ p e = true) :
    (List.range N).find? p = none := by
  rw [List.find?_eq_none]
  intro x hx
  exact h x (List.mem_range.mp hx)

end FindRange

/-- C7: for a `BarycentricRational` with `N+1` nodes, `degree_numer` (resp.
`degree_denom`) scans `defect = 0, ..., N-1` and returns `N - defect` for the
first defect at which `|Σ values*weights*nodes^defect|` (resp.
`|Σ weights*nodes^defect|`) exceeds `tol`, and returns `0` when no defect
passes the test. -/
theorem degree_detection (r : BarycentricRational) (tol : ℚ) :
    (∀ d, d < r.nodes.length - 1 →
      (∀ e, e < d → |momentNumer r e| ≤ tol) → tol < |momentNumer r d| →
      degree_numer r tol = (r.nodes.length - 1) - d) ∧
    ((∀ d, d < r.nodes.length - 1 → |momentNumer r d| ≤ tol) →
      degree_numer r tol = 0) ∧
    (∀ d, d < r.nodes.length - 1 →
      (∀ e, e < d → |momentDenom r e| ≤ tol) → tol < |momentDenom r d| →
      degree_denom r tol = (r.nodes.length - 1) - d) ∧
    ((∀ d, d < r.nodes.length - 1 → |momentDenom r d| ≤ tol) →
      degree_denom r tol = 0) := by
  refine ⟨?_, ?_, ?_, ?_⟩
  · intro d hd hearlier hhit
    unfold degree_numer
    rw [find?_range_eq_some hd ?_ ?_]
    · intro e he
      simp only [decide_eq_true_eq, not_lt]
      exact hearlier e he
    · simpa using hhit
  · intro hall
    unfold degree_numer
    rw [find?_range_eq_none ?_]
    intro e he
    simp only [decide_eq_true_eq, not_lt]
    exact hall e he
  · intro d hd hearlier hhit
    unfold degree_denom
    rw [find?_range_eq_some hd ?_ ?_]
    · intro e he
      simp only [decide_eq_true_eq, not_lt]
      exact hearlier e he
    · simpa using hhit
  · intro hall
    unfold degree_denom
    rw [find?_range_eq_none ?_]
    intro e he
    simp only [decide_eq_true_eq, not_lt]
    exact hall e he

/-- Concrete instance of `degree_detection`: a two-node function whose moment
sum at defect `0` exceeds `tol = 0`, so the numerator degree is `1`. -/
theorem degree_detection_witness :
    (0 : ℚ) < |momentNumer ⟨[1, 2], [1, 1], [1, 1]⟩ 0| ∧
    degree_numer ⟨[1, 2], [1, 1], [1, 1]⟩ 0 = 1 := by
  have hm : momentNumer ⟨[1, 2], [1, 1], [1, 1]⟩ 0 = 2 := by
    norm_num [momentNumer]
  have hh : (0 : ℚ) < |momentNumer ⟨[1, 2], [1, 1], [1, 1]⟩ 0| := by
    rw [hm]; norm_num
  refine ⟨hh, ?_⟩
  exact (degree_detection ⟨[1, 2], [1, 1], [1, 1]⟩ 0).1 0 (by decide)
    (fun e he => absurd he (Nat.not_lt_zero e)) hh

/-- Oracle interface for the external full QR factorization: `qr a b M` is the
orthogonal factor `Q` (of shape `a × a`) of an `a × b` input matrix, standing
for `scipy.linalg.qr(·, mode='full')`. -/
def QROracle : Type :=
  (a b : ℕ) → Matrix (Fin a) (Fin b) ℚ → Matrix (Fin a) (Fin a) ℚ

/-- Translation of `_nullspace_vector` (standard-precision path, the only one
inside this core; the `use_mp` branch delegates to the out-of-scope extended
precision provider): a matrix with zero rows yields the standard basis vector
`e_0`; otherwise the result is the last column of the orthogonal factor of the
QR factorization of the transpose (complex conjugation is the identity on the
real data modelled here). -/
def nullspace_vector {m n : ℕ} (qr : QROracle) (A : Matrix (Fin m) (Fin n) ℚ) :
    Fin n → ℚ :=
  if m = 0 then (fun i => if (i : ℕ) = 0 then (1 : ℚ) else 0)
  else fun i => qr n m A.transpose i ⟨n - 1, Nat.sub_lt i.pos Nat.one_pos⟩

/-- C8: for a matrix with zero rows (and at least one column) the null-space
routine returns the standard basis vector `e_0` (a unit vector); for a matrix
with rows it returns the last orthogonal-basis column of the QR factorization
of the transpose, which is a unit vector whenever the external QR provider
returns an orthogonal factor. -/
theorem nullspace_vector_spec :
    (∀ (n : ℕ) (qr : QROracle) (A : Matrix (Fin 0) (Fin n) ℚ), 0 < n →
      nullspace_vector qr A = (fun (i : Fin n) => if (i : ℕ) = 0 then (1 : ℚ) else 0) ∧
      ∑ i, (nullspace_vector qr A i) ^ 2 = 1) ∧
    (∀ (m n : ℕ) (qr : QROracle) (A : Matrix (Fin m) (Fin n) ℚ),
      m ≠ 0 → (hn : 0 < n) →
      (qr n m A.transpose).transpose * qr n m A.transpose = 1 →
      (∀ i, nullspace_vector qr A i =
        qr n m A.transpose i ⟨n - 1, Nat.sub_lt hn Nat.one_pos⟩) ∧
      ∑ i, (nullspace_vector qr A i) ^ 2 = 1) := by
  constructor
  · intro n qr A hn
    have he : nullspace_vector qr A = (fun (i : Fin n) => if (i : ℕ) = 0 then (1 : ℚ) else 0) := by
      simp [nullspace_vector]
    refine ⟨he, ?_⟩
    rw [he]
    rw [Finset.sum_eq_single (⟨0, hn⟩ : Fin n)]
    · simp
    · intro b _ hb
      have : (b : ℕ) ≠ 0 := by
        intro h0
        exact hb (Fin.ext h0)
      simp [this]
    · intro h
      exact absurd (Finset.mem_univ _) h
  · intro m n qr A hm hn horth
    have he : ∀ i, nullspace_vector qr A i =
        qr n m A.transpose i ⟨n - 1, Nat.sub_lt hn Nat.one_pos⟩ := by
      intro i
      simp [nullspace_vector, hm]
    refine ⟨he, ?_⟩
    have hentry := congrFun (congrFun horth ⟨n - 1, Nat.sub_lt hn Nat.one_pos⟩)
      ⟨n - 1, Nat.sub_lt hn Nat.one_pos⟩
    rw [Matrix.mul_apply] at hentry
    rw [Matrix.one_apply_eq] at hentry
    calc ∑ i, (nullspace_vector qr A i) ^ 2
        = ∑ i, (qr n m A.transpose).transpose ⟨n - 1, Nat.sub_lt hn Nat.one_pos⟩ i *
            qr n m A.transpose i ⟨n - 1, Nat.sub_lt hn Nat.one_pos⟩ := by
          apply Finset.sum_congr rfl
          intro i _
          rw [he i, Matrix.transpose_apply, sq]
      _ = 1 := hentry

/-- Identity QR oracle used to instantiate the null-space specification on
concrete inputs. -/
def qrId : QROracle := fun _ _ _ => 1

/-- Concrete instance of `nullspace_vector_spec` at a `0 × 1` matrix and at a
`1 × 1` matrix with the identity orthogonal factor. -/
theorem nullspace_vector_spec_witness :
    (0 < 1 ∧
      nullspace_vector qrId (0 : Matrix (Fin 0) (Fin 1) ℚ) =
        (fun (i : Fin 1) => if (i : ℕ) = 0 then (1 : ℚ) else 0)) ∧
    ((1 ≠ 0) ∧
      ∑ i, (nullspace_vector qrId (1 : Matrix (Fin 1) (Fin 1) ℚ) i) ^ 2 = 1) := by
  constructor
  · exact ⟨Nat.one_pos,
      (nullspace_vector_spec.1 1 qrId 0 Nat.one_pos).1⟩
  · refine ⟨Nat.one_ne_zero, ?_⟩
    refine (nullspace_vector_spec.2 1 1 qrId 1 Nat.one_ne_zero Nat.one_pos ?_).2
    show (qrId 1 1 (1 : Matrix (Fin 1) (Fin 1) ℚ).transpose).transpose *
      qrId 1 1 (1 : Matrix (Fin 1) (Fin 1) ℚ).transpose = 1
    simp [qrId]

/-- Order of a barycentric rational function: number of nodes minus one
(property `BarycentricRational.order`). -/
def BarycentricRational.order (r : BarycentricRational) : ℕ :=
  r.nodes.length - 1

/-- Midpoints of consecutive nodes, `(nodes[1:] + nodes[:-1]) / 2`. -/
def midNodes (z : List ℚ) : List ℚ :=
  List.zipWith (fun a b => (a + b) / 2) (z.drop 1) z

/-- Loewner matrix `(aux_v[:,None] - vs[None,:]) / (aux_n[:,None] - xs[None,:])`
of divided differences between an auxiliary sample set and a node set. -/
def loewnerOf (auxn auxv xs vs : List ℚ) (a b : ℕ) : Matrix (Fin a) (Fin b) ℚ :=
  Matrix.of fun k l =>
    (auxv.getD k 0 - vs.getD l 0) / (auxn.getD k 0 - xs.getD l 0)

/-- The Loewner matrix sampled at interval midpoints, as formed at the start
of `BarycentricRational.reduce_order`. -/
def midLoewner (r : BarycentricRational) :
    Matrix (Fin (r.nodes.length - 1)) (Fin r.nodes.length) ℚ :=
  loewnerOf (midNodes r.nodes) ((midNodes r.nodes).map (fun x => callPoint r x))
    r.nodes r.values (r.nodes.length - 1) r.nodes.length

/-- Oracle interface for the external numerical-rank computation
(`np.linalg.matrix_rank`). -/
def RankOracle : Type :=
  (a b : ℕ) → Matrix (Fin a) (Fin b) ℚ → ℕ

/-- Translation of `BarycentricRational.reduce_order`: sample at interval
midpoints, form the Loewner matrix, take its numerical rank as the reduced
order; if the rank equals the current order, return a copy of the stored
triple, otherwise subsample the nodes with stride `scale`, rebuild the Loewner
matrix over the subset and solve a new null-space weight vector.  (With a rank
oracle exceeding the order, numpy would raise on the zero stride of
`np.arange`; the embedding totalizes that unreachable branch.) -/
def reduce_order (rank : RankOracle) (qr : QROracle)
    (r : BarycentricRational) : BarycentricRational :=
  let L := midLoewner r
  let order := rank (r.nodes.length - 1) r.nodes.length L
  if order = r.order then ⟨r.nodes, r.values, r.weights⟩
  else
    let n := order + 1
    let scale := if n = 1 then 1 else (r.nodes.length - 1) / (n - 1)
    let subset := (List.range n).map (fun i => scale * i)
    let nodes2 := subset.map (fun i => r.nodes.getD i 0)
    let values2 := subset.map (fun i => r.values.getD i 0)
    let aux2 := midNodes nodes2
    let auxv2 := aux2.map (fun x => callPoint r x)
    let L2 := loewnerOf aux2 auxv2 nodes2 values2 order (order + 1)
    ⟨nodes2, values2, List.ofFn (nullspace_vector qr L2)⟩

/-- State-passing form of `reduce_order`: the method never assigns an
attribute of `self` (it only builds a new instance), so the translated method
returns the receiver unchanged next to the new function. -/
def reduce_order_state (rank : RankOracle) (qr : QROracle)
    (r : BarycentricRational) : BarycentricRational × BarycentricRational :=
  (r, reduce_order rank qr r)

/-- C10: when the numerical rank of the midpoint-sampled Loewner matrix equals
the current order, `reduce_order` returns a new `BarycentricRational` whose
nodes, values and weights are element-wise equal to the original's, and in
every case the original instance is left unchanged (state-passing form). -/
theorem reduce_order_identity (rank : RankOracle) (qr : QROracle)
    (r : BarycentricRational)
    (hrank : rank (r.nodes.length - 1) r.nodes.length (midLoewner r) = r.order) :
    reduce_order rank qr r = r ∧
    ∀ (rk : RankOracle) (qo : QROracle), (reduce_order_state rk qo r).1 = r := by
  constructor
  · simp [reduce_order, hrank]
  · intro rk qo
    rfl

/-- Rank oracle returning the row count, which equals the order for the
midpoint Loewner matrix of the concrete witness below. -/
def rankRows : RankOracle := fun a _ _ => a

/-- Concrete instance of `reduce_order_identity` on a two-node function whose
Loewner matrix is reported to have full rank `1 = order`. -/
theorem reduce_order_identity_witness :
    rankRows 1 2 (midLoewner ⟨[0, 1], [1, 2], [1, 1]⟩) =
      BarycentricRational.order ⟨[0, 1], [1, 2], [1, 1]⟩ ∧
    reduce_order rankRows qrId ⟨[0, 1], [1, 2], [1, 1]⟩ = ⟨[0, 1], [1, 2], [1, 1]⟩ := by
  have h : rankRows 1 2 (midLoewner ⟨[0, 1], [1, 2], [1, 1]⟩) =
      BarycentricRational.order ⟨[0, 1], [1, 2], [1, 1]⟩ := rfl
  exact ⟨h, (reduce_order_identity rankRows qrId ⟨[0, 1], [1, 2], [1, 1]⟩ h).1⟩

/-- Entries at even indices, `l[0::2]`. -/
def evenEntries (l : List ℚ) : List ℚ :=
  List.ofFn (fun i : Fin ((l.length + 1) / 2) => l.getD (2 * (i : ℕ)) 0)

/-- Entries at odd indices, `l[1::2]`. -/
def oddEntries (l : List ℚ) : List ℚ :=
  List.ofFn (fun i : Fin (l.length / 2) => l.getD (2 * (i : ℕ) + 1) 0)

/-- The Loewner matrix of `interpolate_rat`:
`B = (vb[:,None] - va[None,:]) / (xb[:,None] - xa[None,:])` with `xa, va` the
even-index and `xb, vb` the odd-index subsets of the data. -/
def ratLoewner (nodes values : List ℚ) :
    Matrix (Fin (values.length / 2)) (Fin (values.length / 2 + 1)) ℚ :=
  loewnerOf (oddEntries nodes) (oddEntries values)
    (evenEntries nodes) (evenEntries values)
    (values.length / 2) (values.length / 2 + 1)

/-- Translation of `interpolate_rat`: check the odd-length condition (raising
`ValueError` otherwise, modelled by `none`), split the data into the two
interleaved subsets, form the Loewner matrix, choose a weight vector in its
null space, and return the barycentric function carried by the even-index
subset. -/
def interpolate_rat (qr : QROracle) (nodes values : List ℚ) :
    Option BarycentricRational :=
  let n := values.length / 2 + 1
  let m := n - 1
  if values.length = n + m ∧ nodes.length = n + m then
    some ⟨evenEntries nodes, evenEntries values,
      List.ofFn (nullspace_vector qr (ratLoewner nodes values))⟩
  else none

/-- Nodal polynomial with the `j`-th factor omitted,
`Π_{i ≠ j} (X - z_i)`. -/
noncomputable def nodalProdExcept (z : List ℚ) (j : ℕ) : Polynomial ℚ :=
  ∏ i ∈ (Finset.range z.length).erase j, (Polynomial.X - Polynomial.C (z.getD i 0))

/-- Numerator polynomial represented by a barycentric triple:
`Σ_j w_j f_j Π_{i ≠ j} (X - z_i)`.  This is the polynomial `N` with
`r(x) = N(x) / D(x)` away from the nodes; it makes the degree statements of
the specification precise. -/
noncomputable def numerPoly (r : BarycentricRational) : Polynomial ℚ :=
  ∑ j ∈ Finset.range r.nodes.length,
    Polynomial.C (r.weights.getD j 0 * r.values.getD j 0) * nodalProdExcept r.nodes j

/-- Denominator polynomial represented by a barycentric triple:
`Σ_j w_j Π_{i ≠ j} (X - z_i)`. -/
noncomputable def denomPoly (r : BarycentricRational) : Polynomial ℚ :=
  ∑ j ∈ Finset.range r.nodes.length,
    Polynomial.C (r.weights.getD j 0) * nodalProdExcept r.nodes j

section ListSumLemmas

lemma list_sum_eq_range (l : List ℚ) :
    l.sum = ∑ i ∈ Finset.range l.length, l.getD i 0 := by
  induction l with
  | nil => simp
  | cons x xs ih =>
    rw [List.sum_cons, ih, List.length_cons, Finset.sum_range_succ']
    simp only [List.getD_cons_succ, List.getD_cons_zero]
    ring

lemma dotl_eq_sum_range {a b : List ℚ} {P : ℕ} (ha : a.length = P)
    (hb : b.length = P) :
    dotl a b = ∑ i ∈ Finset.range P, a.getD i 0 * b.getD i 0 := by
  unfold dotl
  rw [list_sum_eq_range]
  have hl : (List.zipWith (· * ·) a b).length = P := by
    rw [List.length_zipWith, ha, hb, min_self]
  rw [hl]
  apply Finset.sum_congr rfl
  intro i hi
  have hiP : i < P := Finset.mem_range.mp hi
  rw [List.getD_eq_getElem _ 0 (by rw [hl]; exact hiP), List.getElem_zipWith]
  rw [List.getD_eq_getElem a 0 (by rw [ha]; exact hiP),
    List.getD_eq_getElem b 0 (by rw [hb]; exact hiP)]

lemma getD_ofFn {P : ℕ} (f : Fin P → ℚ) {i : ℕ} (hi : i < P) :
    (List.ofFn f).getD i 0 = f ⟨i, hi⟩ := by
  rw [List.getD_eq_getElem _ 0 (by rw [List.length_ofFn]; exact hi),
    List.getElem_ofFn]

lemma evenEntries_getD {l : List ℚ} {i : ℕ} (hi : i < (l.length + 1) / 2) :
    (evenEntries l).getD i 0 = l.getD (2 * i) 0 :=
  getD_ofFn _ hi

lemma oddEntries_getD {l : List ℚ} {i : ℕ} (hi : i < l.length / 2) :
    (oddEntries l).getD i 0 = l.getD (2 * i + 1) 0 :=
  getD_ofFn _ hi

lemma evenEntries_length (l : List ℚ) :
    (evenEntries l).length = (l.length + 1) / 2 :=
  List.length_ofFn _

lemma evenEntries_pairwise_lt {z : List ℚ} (h : z.Pairwise (· < ·)) :
    (evenEntries z).Pairwise (· < ·) := by
  rw [List.pairwise_iff_getElem] at h ⊢
  intro i j hi hj hij
  have hi2 : i < (z.length + 1) / 2 := by
    have hc := hi
    rw [evenEntries_length] at hc
    exact hc
  have hj2 : j < (z.length + 1) / 2 := by
    have hc := hj
    rw [evenEntries_length] at hc
    exact hc
  have h2i : 2 * i < z.length := by omega
  have h2j : 2 * j < z.length := by omega
  have e1 : (evenEntries z)[i] = z.getD (2 * i) 0 := by
    rw [← List.getD_eq_getElem (evenEntries z) 0 hi]
    exact evenEntries_getD hi2
  have e2 : (evenEntries z)[j] = z.getD (2 * j) 0 := by
    rw [← List.getD_eq_getElem (evenEntries z) 0 hj]
    exact evenEntries_getD hj2
  rw [e1, e2, List.getD_eq_getElem z 0 h2i, List.getD_eq_getElem z 0 h2j]
  exact h (2 * i) (2 * j) h2i h2j (by omega)

lemma nodeMatches_eq_nil {z : List ℚ} {x : ℚ}
    (h : ∀ i, i < z.length → z.getD i 0 ≠ x) : nodeMatches z x = [] := by
  unfold nodeMatches
  apply List.filter_eq_nil_iff.mpr
  intro a ha
  simp only [decide_eq_true_eq]
  exact h a (List.mem_range.mp ha)

lemma callPoint_formula (r : BarycentricRational) (x : ℚ)
    (h : nodeMatches r.nodes x = []) :
    callPoint r x =
      dotl (r.nodes.map (fun zj => 1 / (x - zj)))
        (List.zipWith (· * ·) r.weights r.values) /
      dotl (r.nodes.map (fun zj => 1 / (x - zj))) r.weights := by
  unfold callPoint
  rw [h]
  rfl

end ListSumLemmas

section DegreeLemmas

lemma natDegree_nodalProdExcept (z : List ℚ) (j : ℕ) (hj : j < z.length) :
    (nodalProdExcept z j).natDegree ≤ z.length - 1 := by
  unfold nodalProdExcept
  refine le_trans (Polynomial.natDegree_prod_le _ _) ?_
  have hone : ∀ i ∈ (Finset.range z.length).erase j,
      (Polynomial.X - Polynomial.C (z.getD i 0)).natDegree = 1 :=
    fun i _ => Polynomial.natDegree_X_sub_C _
  rw [Finset.sum_congr rfl hone, Finset.sum_const, smul_eq_mul, mul_one,
    Finset.card_erase_of_mem (Finset.mem_range.mpr hj), Finset.card_range]

lemma natDegree_numerPoly_le (r : BarycentricRational) :
    (numerPoly r).natDegree ≤ r.nodes.length - 1 := by
  apply Polynomial.natDegree_sum_le_of_forall_le
  intro j hj
  exact le_trans (Polynomial.natDegree_C_mul_le _ _)
    (natDegree_nodalProdExcept _ _ (Finset.mem_range.mp hj))

lemma natDegree_denomPoly_le (r : BarycentricRational) :
    (denomPoly r).natDegree ≤ r.nodes.length - 1 := by
  apply Polynomial.natDegree_sum_le_of_forall_le
  intro j hj
  exact le_trans (Polynomial.natDegree_C_mul_le _ _)
    (natDegree_nodalProdExcept _ _ (Finset.mem_range.mp hj))

lemma natDegree_pair_linear (a b c d : ℚ) (h : a + c ≠ 0) :
    (Polynomial.C a * (Polynomial.X - Polynomial.C b) +
      Polynomial.C c * (Polynomial.X - Polynomial.C d)).natDegree = 1 := by
  have e : Polynomial.C a * (Polynomial.X - Polynomial.C b) +
      Polynomial.C c * (Polynomial.X - Polynomial.C d) =
      Polynomial.C (a + c) * Polynomial.X + Polynomial.C (-(a * b) - c * d) := by
    rw [map_add, map_sub, map_neg, map_mul, map_mul]
    ring
  rw [e]
  exact Polynomial.natDegree_linear h

end DegreeLemmas

section SecondaryInterp

lemma bary_secondary {P : ℕ} (z v W : ℕ → ℚ) (x fb : ℚ)
    (hrow : ∑ l ∈ Finset.range P, ((fb - v l) / (x - z l)) * W l = 0)
    (hD : (∑ l ∈ Finset.range P, 1 / (x - z l) * W l) ≠ 0) :
    (∑ l ∈ Finset.range P, 1 / (x - z l) * (W l * v l)) /
      (∑ l ∈ Finset.range P, 1 / (x - z l) * W l) = fb := by
  have key : ∀ l, ((fb - v l) / (x - z l)) * W l =
      fb * (1 / (x - z l) * W l) - 1 / (x - z l) * (W l * v l) := by
    intro l
    rw [div_eq_mul_one_div]
    ring
  rw [Finset.sum_congr rfl (fun l _ => key l), Finset.sum_sub_distrib,
    ← Finset.mul_sum] at hrow
  have hN : (∑ l ∈ Finset.range P, 1 / (x - z l) * (W l * v l)) =
      fb * (∑ l ∈ Finset.range P, 1 / (x - z l) * W l) := by
    linarith [hrow]
  rw [hN, mul_div_assoc, div_self hD, mul_one]

end SecondaryInterp

/-- C5 amended: for strictly increasing nodes of odd length `2n+1` with
matching values, `interpolate_rat` splits the data into the even-index and
odd-index subsets, forms the Loewner matrix of divided differences between
them, takes a null-space vector as the weights over the even-index nodes, and
returns a rational interpolant of degree at most `(n, n)` (not `(n, n-1)`):
numerator and denominator polynomial both have degree at most `n`, the
function interpolates all even-index (support) data exactly, and it
interpolates each odd-index datum as well whenever the denominator does not
vanish there. -/
theorem interpolate_rat_spec (qr : QROracle) (n : ℕ) (nodes values : List ℚ)
    (hlen : nodes.length = 2 * n + 1) (hvlen : values.length = 2 * n + 1)
    (hsort : nodes.Pairwise (· < ·))
    (hnull : (ratLoewner nodes values).mulVec
      (nullspace_vector qr (ratLoewner nodes values)) = 0) :
    ∃ r, interpolate_rat qr nodes values = some r ∧
      r.nodes = evenEntries nodes ∧
      r.values = evenEntries values ∧
      r.weights = List.ofFn (nullspace_vector qr (ratLoewner nodes values)) ∧
      r.nodes.length = n + 1 ∧
      (numerPoly r).natDegree ≤ n ∧
      (denomPoly r).natDegree ≤ n ∧
      (∀ l, l ≤ n → callPoint r (nodes.getD (2 * l) 0) = values.getD (2 * l) 0) ∧
      (∀ k, k < n →
        dotl (r.nodes.map (fun zj => 1 / (nodes.getD (2 * k + 1) 0 - zj)))
          r.weights ≠ 0 →
        callPoint r (nodes.getD (2 * k + 1) 0) = values.getD (2 * k + 1) 0) := by
  set w := nullspace_vector qr (ratLoewner nodes values) with hw
  refine ⟨⟨evenEntries nodes, evenEntries values, List.ofFn w⟩, ?_, rfl, rfl, rfl,
    ?_, ?_, ?_, ?_, ?_⟩
  · -- the odd-length check passes and the function returns the constructed triple
    have hcond : values.length = values.length / 2 + 1 + (values.length / 2 + 1 - 1) ∧
        nodes.length = values.length / 2 + 1 + (values.length / 2 + 1 - 1) := by
      omega
    simp only [interpolate_rat]
    rw [if_pos hcond]
  · rw [show (⟨evenEntries nodes, evenEntries values, List.ofFn w⟩ :
      BarycentricRational).nodes = evenEntries nodes from rfl,
      evenEntries_length]
    omega
  · refine le_trans (natDegree_numerPoly_le _) ?_
    rw [show (⟨evenEntries nodes, evenEntries values, List.ofFn w⟩ :
      BarycentricRational).nodes = evenEntries nodes from rfl,
      evenEntries_length]
    omega
  · refine le_trans (natDegree_denomPoly_le _) ?_
    rw [show (⟨evenEntries nodes, evenEntries values, List.ofFn w⟩ :
      BarycentricRational).nodes = evenEntries nodes from rfl,
      evenEntries_length]
    omega
  · -- interpolation at the even-index (support) nodes
    intro l hl
    have hdist : (evenEntries nodes).Pairwise (· ≠ ·) :=
      (evenEntries_pairwise_lt hsort).imp (fun h => ne_of_lt h)
    have hlP : l < (nodes.length + 1) / 2 := by omega
    have hlP' : l < (values.length + 1) / 2 := by omega
    have := callPoint_node
      (r := ⟨evenEntries nodes, evenEntries values, List.ofFn w⟩) (j := l)
      (x := nodes.getD (2 * l) 0)
      (by rw [show (⟨evenEntries nodes, evenEntries values, List.ofFn w⟩ :
          BarycentricRational).nodes = evenEntries nodes from rfl,
          evenEntries_length]; omega)
      hdist (evenEntries_getD hlP)
    rw [this]
    exact evenEntries_getD hlP'
  · -- interpolation at the odd-index (secondary) nodes
    intro k hk hD
    have hnodesne : nodes.Pairwise (· ≠ ·) := hsort.imp (fun h => ne_of_lt h)
    have h2k : 2 * k + 1 < nodes.length := by omega
    have hmatch : nodeMatches (evenEntries nodes) (nodes.getD (2 * k + 1) 0) = [] := by
      apply nodeMatches_eq_nil
      intro i hi
      rw [evenEntries_length] at hi
      have h2i : 2 * i < nodes.length := by omega
      rw [evenEntries_getD hi]
      exact pairwise_ne_getD hnodesne h2i h2k (by omega)
    replace hD : dotl ((evenEntries nodes).map
        (fun zj => 1 / (nodes.getD (2 * k + 1) 0 - zj))) (List.ofFn w) ≠ 0 := hD
    rw [callPoint_formula _ _ hmatch]
    show dotl ((evenEntries nodes).map (fun zj => 1 / (nodes.getD (2 * k + 1) 0 - zj)))
        (List.zipWith (· * ·) (List.ofFn w) (evenEntries values)) /
      dotl ((evenEntries nodes).map (fun zj => 1 / (nodes.getD (2 * k + 1) 0 - zj)))
        (List.ofFn w) = values.getD (2 * k + 1) 0
    have hWl : (List.ofFn w).length = n + 1 := by
      rw [List.length_ofFn]
      omega
    have hVl : (evenEntries values).length = n + 1 := by
      rw [evenEntries_length]
      omega
    have hCl : ((evenEntries nodes).map
        (fun zj => 1 / (nodes.getD (2 * k + 1) 0 - zj))).length = n + 1 := by
      rw [List.length_map, evenEntries_length]
      omega
    have hZl : (List.zipWith (· * ·) (List.ofFn w) (evenEntries values)).length
        = n + 1 := by
      rw [List.length_zipWith, hWl, hVl, min_self]
    have hgetC : ∀ i, i < n + 1 →
        ((evenEntries nodes).map
          (fun zj => 1 / (nodes.getD (2 * k + 1) 0 - zj))).getD i 0 =
          1 / (nodes.getD (2 * k + 1) 0 - nodes.getD (2 * i) 0) := by
      intro i hi
      have hi' : i < (evenEntries nodes).length := by
        rw [evenEntries_length]
        omega
      rw [List.getD_eq_getElem _ 0 (by rw [List.length_map]; exact hi'),
        List.getElem_map, ← List.getD_eq_getElem _ 0 hi',
        evenEntries_getD (by rw [evenEntries_length] at hi'; exact hi')]
    have hgetZ : ∀ i, i < n + 1 →
        (List.zipWith (· * ·) (List.ofFn w) (evenEntries values)).getD i 0 =
          (List.ofFn w).getD i 0 * values.getD (2 * i) 0 := by
      intro i hi
      rw [List.getD_eq_getElem _ 0 (by rw [hZl]; exact hi), List.getElem_zipWith,
        ← List.getD_eq_getElem (List.ofFn w) 0 (by rw [hWl]; exact hi),
        ← List.getD_eq_getElem (evenEntries values) 0 (by rw [hVl]; exact hi),
        evenEntries_getD (by omega)]
    have hNsum : dotl ((evenEntries nodes).map
        (fun zj => 1 / (nodes.getD (2 * k + 1) 0 - zj)))
        (List.zipWith (· * ·) (List.ofFn w) (evenEntries values)) =
        ∑ l ∈ Finset.range (n + 1),
          1 / (nodes.getD (2 * k + 1) 0 - nodes.getD (2 * l) 0) *
            ((List.ofFn w).getD l 0 * values.getD (2 * l) 0) := by
      rw [dotl_eq_sum_range hCl hZl]
      apply Finset.sum_congr rfl
      intro i hi
      rw [hgetC i (Finset.mem_range.mp hi), hgetZ i (Finset.mem_range.mp hi)]
    have hDsum : dotl ((evenEntries nodes).map
        (fun zj => 1 / (nodes.getD (2 * k + 1) 0 - zj))) (List.ofFn w) =
        ∑ l ∈ Finset.range (n + 1),
          1 / (nodes.getD (2 * k + 1) 0 - nodes.getD (2 * l) 0) *
            (List.ofFn w).getD l 0 := by
      rw [dotl_eq_sum_range hCl hWl]
      apply Finset.sum_congr rfl
      intro i hi
      rw [hgetC i (Finset.mem_range.mp hi)]
    have hkP : k < values.length / 2 := by omega
    have hrowFin := congrFun hnull ⟨k, hkP⟩
    simp only [Matrix.mulVec, Matrix.dotProduct, Pi.zero_apply] at hrowFin
    have hterm : ∀ l : Fin (values.length / 2 + 1),
        ratLoewner nodes values ⟨k, hkP⟩ l * w l =
          (fun ln => (values.getD (2 * k + 1) 0 - values.getD (2 * ln) 0) /
            (nodes.getD (2 * k + 1) 0 - nodes.getD (2 * ln) 0) *
            (List.ofFn w).getD ln 0) (l : ℕ) := by
      intro l
      have hlv : (l : ℕ) < (values.length + 1) / 2 := by
        have := l.isLt
        omega
      have hln : (l : ℕ) < (nodes.length + 1) / 2 := by
        have := l.isLt
        omega
      have hkn : k < nodes.length / 2 := by omega
      show ((oddEntries values).getD k 0 - (evenEntries values).getD (l : ℕ) 0) /
          ((oddEntries nodes).getD k 0 - (evenEntries nodes).getD (l : ℕ) 0) * w l =
          (values.getD (2 * k + 1) 0 - values.getD (2 * (l : ℕ)) 0) /
            (nodes.getD (2 * k + 1) 0 - nodes.getD (2 * (l : ℕ)) 0) *
            (List.ofFn w).getD (l : ℕ) 0
      rw [oddEntries_getD hkP, oddEntries_getD hkn, evenEntries_getD hlv,
        evenEntries_getD hln, getD_ofFn w l.isLt]
    have hrange : ∑ l ∈ Finset.range (values.length / 2 + 1),
        (values.getD (2 * k + 1) 0 - values.getD (2 * l) 0) /
          (nodes.getD (2 * k + 1) 0 - nodes.getD (2 * l) 0) *
          (List.ofFn w).getD l 0 = 0 :=
      calc ∑ l ∈ Finset.range (values.length / 2 + 1),
            (values.getD (2 * k + 1) 0 - values.getD (2 * l) 0) /
              (nodes.getD (2 * k + 1) 0 - nodes.getD (2 * l) 0) *
              (List.ofFn w).getD l 0
          = ∑ l : Fin (values.length / 2 + 1),
            (fun ln => (values.getD (2 * k + 1) 0 - values.getD (2 * ln) 0) /
              (nodes.getD (2 * k + 1) 0 - nodes.getD (2 * ln) 0) *
              (List.ofFn w).getD ln 0) (l : ℕ) :=
            (Fin.sum_univ_eq_sum_range _ _).symm
        _ = ∑ l : Fin (values.length / 2 + 1),
            ratLoewner nodes values ⟨k, hkP⟩ l * w l :=
            Finset.sum_congr rfl (fun l _ => (hterm l).symm)
        _ = 0 := hrowFin
    have hrange2 : ∑ l ∈ Finset.range (n + 1),
        (values.getD (2 * k + 1) 0 - values.getD (2 * l) 0) /
          (nodes.getD (2 * k + 1) 0 - nodes.getD (2 * l) 0) *
          (List.ofFn w).getD l 0 = 0 := by
      rw [show n + 1 = values.length / 2 + 1 from by omega]
      exact hrange
    have hDne : (∑ l ∈ Finset.range (n + 1),
        1 / (nodes.getD (2 * k + 1) 0 - nodes.getD (2 * l) 0) *
          (List.ofFn w).getD l 0) ≠ 0 := by
      rw [hDsum] at hD
      exact hD
    rw [hNsum, hDsum]
    exact bary_secondary (fun ln => nodes.getD (2 * ln) 0)
      (fun ln => values.getD (2 * ln) 0) (fun ln => (List.ofFn w).getD ln 0)
      (nodes.getD (2 * k + 1) 0) (values.getD (2 * k + 1) 0) hrange2 hDne


/-- QR oracle whose last orthogonal-basis column is `(-2, 1)` for `2 x 2`
outputs: on the concrete Loewner matrix `B = [1, 2]` below this is an exact
null-space vector of `B`, as the counterexample verifies. -/
def qr0 : QROracle :=
  fun _ _ _ => Matrix.of fun i _ => if (i : ℕ) = 0 then (-2 : ℚ) else 1

lemma ratLoewner_c5_nullvec :
    (ratLoewner [0, 1, 2] [0, 1, 3]).mulVec
      (nullspace_vector qr0 (ratLoewner [0, 1, 2] [0, 1, 3])) = 0 := by
  funext i
  fin_cases i
  simp only [Matrix.mulVec, Matrix.dotProduct, Pi.zero_apply]
  show (∑ x : Fin 2,
      ratLoewner [0, 1, 2] [0, 1, 3] ⟨0, Nat.one_pos⟩ x *
        nullspace_vector qr0 (ratLoewner [0, 1, 2] [0, 1, 3]) x) = 0
  rw [Fin.sum_univ_two]
  show ((1 : ℚ) - 0) / ((1 : ℚ) - 0) * (-2) + ((1 : ℚ) - 3) / ((1 : ℚ) - 2) * 1 = 0
  norm_num

/-- C5 counterexample: with strictly increasing nodes `[0, 1, 2]` (so `n = 1`)
and values `[0, 1, 3]`, and a QR oracle returning an exact null-space vector
`(-2, 1)` of the Loewner matrix `B = [1, 2]`, `interpolate_rat` succeeds, the
returned function interpolates the middle (secondary) node, but its
denominator polynomial has degree `1 = n`, not at most `n - 1 = 0` as the
claim states. -/
theorem interpolate_rat_counterexample :
    ∃ r, interpolate_rat qr0 [0, 1, 2] [0, 1, 3] = some r ∧
      (ratLoewner [0, 1, 2] [0, 1, 3]).mulVec
        (nullspace_vector qr0 (ratLoewner [0, 1, 2] [0, 1, 3])) = 0 ∧
      r.weights = [-2, 1] ∧
      callPoint r 1 = 1 ∧
      (denomPoly r).natDegree = 1 ∧
      ¬ (denomPoly r).natDegree ≤ 1 - 1 := by
  refine ⟨⟨[0, 2], [0, 3], [-2, 1]⟩, ?_, ratLoewner_c5_nullvec, rfl, ?_, ?_, ?_⟩
  · rfl
  · have hm : nodeMatches ([0, 2] : List ℚ) 1 = [] := by decide
    rw [callPoint_formula ⟨[0, 2], [0, 3], [-2, 1]⟩ 1 hm]
    show dotl (([0, 2] : List ℚ).map (fun zj => 1 / (1 - zj)))
        (List.zipWith (· * ·) [-2, 1] [0, 3]) /
      dotl (([0, 2] : List ℚ).map (fun zj => 1 / (1 - zj))) [-2, 1] = 1
    norm_num [dotl, List.zipWith]
  · have hp : denomPoly ⟨[0, 2], [0, 3], [-2, 1]⟩ =
        Polynomial.C (-2) * (Polynomial.X - Polynomial.C 2) +
        Polynomial.C 1 * (Polynomial.X - Polynomial.C 0) := by
      unfold denomPoly nodalProdExcept
      show ∑ j ∈ Finset.range 2, Polynomial.C (([-2, 1] : List ℚ).getD j 0) *
          ∏ i ∈ (Finset.range 2).erase j,
            (Polynomial.X - Polynomial.C (([0, 2] : List ℚ).getD i 0)) = _
      rw [Finset.sum_range_succ, Finset.sum_range_succ, Finset.sum_range_zero,
        zero_add]
      have e0 : (Finset.range 2).erase 0 = {1} := by decide
      have e1 : (Finset.range 2).erase 1 = {0} := by decide
      rw [e0, e1, Finset.prod_singleton, Finset.prod_singleton]
      norm_num
    rw [hp]
    exact natDegree_pair_linear (-2) 2 1 0 (by norm_num)
  · have hp : denomPoly ⟨[0, 2], [0, 3], [-2, 1]⟩ =
        Polynomial.C (-2) * (Polynomial.X - Polynomial.C 2) +
        Polynomial.C 1 * (Polynomial.X - Polynomial.C 0) := by
      unfold denomPoly nodalProdExcept
      show ∑ j ∈ Finset.range 2, Polynomial.C (([-2, 1] : List ℚ).getD j 0) *
          ∏ i ∈ (Finset.range 2).erase j,
            (Polynomial.X - Polynomial.C (([0, 2] : List ℚ).getD i 0)) = _
      rw [Finset.sum_range_succ, Finset.sum_range_succ, Finset.sum_range_zero,
        zero_add]
      have e0 : (Finset.range 2).erase 0 = {1} := by decide
      have e1 : (Finset.range 2).erase 1 = {0} := by decide
      rw [e0, e1, Finset.prod_singleton, Finset.prod_singleton]
      norm_num
    rw [hp, natDegree_pair_linear (-2) 2 1 0 (by norm_num)]
    omega

/-- Concrete instance of `interpolate_rat_spec` on the same data: the
hypotheses hold and the returned interpolant has numerator and denominator
degree at most `n = 1`. -/
theorem interpolate_rat_spec_witness :
    (([(0 : ℚ), 1, 2]).length = 2 * 1 + 1 ∧
      ([(0 : ℚ), 1, 2]).Pairwise (· < ·)) ∧
    ∃ r, interpolate_rat qr0 [0, 1, 2] [0, 1, 3] = some r ∧
      (numerPoly r).natDegree ≤ 1 ∧ (denomPoly r).natDegree ≤ 1 := by
  refine ⟨⟨by decide, ?_⟩, ?_⟩
  · show List.Pairwise (· < ·) [(0 : ℚ), 1, 2]
    norm_num [List.pairwise_cons]
  · obtain ⟨r, h1, _, _, _, _, hnum, hden, _, _⟩ :=
      interpolate_rat_spec qr0 1 [0, 1, 2] [0, 1, 3] (by decide) (by decide)
        (by norm_num [List.pairwise_cons]) ratLoewner_c5_nullvec
    exact ⟨r, h1, hnum, hden⟩

/-- Helper for `argmaxIdx`: scan with current index, best index and best
value, replacing the best only on a strictly larger value (`np.argmax`
returns the first maximum). -/
def argmaxAux : List ℚ → ℕ → ℕ → ℚ → ℕ
  | [], _, bi, _ => bi
  | x :: xs, i, bi, bv =>
    if bv < x then argmaxAux xs (i + 1) i x else argmaxAux xs (i + 1) bi bv

/-- Index of the first maximum of a list (`np.argmax`); `0` on an empty list
(where numpy would raise, a case excluded by the callers below). -/
def argmaxIdx : List ℚ → ℕ
  | [] => 0
  | x :: xs => argmaxAux xs 1 0 x

/-- Max norm `np.linalg.norm(v, inf)`: the largest absolute value. -/
def normInf (l : List ℚ) : ℚ := (l.map (fun x => |x|)).foldr max 0

/-- Loop state of the `aaa` iteration: remaining sample indices `J`, support
nodes `zj` and values `fj`, the most recent weight vector (`none` before the
first iteration, where the source variable is still unbound), the residual
vector `R` and the error history. -/
structure AAAState where
  J : List ℕ
  zj : List ℚ
  fj : List ℚ
  wj : Option (List ℚ)
  R : List ℚ
  errors : List ℚ

/-- One iteration of the `aaa` loop with the chosen sample index `jj`
already picked: move sample `jj` to the support set, form the Loewner matrix
`A = (F[J] - fj) * C` over the remaining samples, obtain the weight vector
from the SVD oracle (the conjugated last right singular vector
`Vh[-1].conj()`), update the residual on the non-support samples by the
rational formula and record the sup-norm error. -/
def aaaStepCore (svd : List (List ℚ) → List ℚ) (Z F : List ℚ) (s : AAAState)
    (jj : ℕ) : AAAState :=
  let zj := s.zj ++ [Z.getD jj 0]
  let fj := s.fj ++ [F.getD jj 0]
  let J := s.J.erase jj
  let A := J.map (fun i =>
    List.zipWith (fun zl fl => (F.getD i 0 - fl) * (1 / (Z.getD i 0 - zl))) zj fj)
  let wj := svd A
  let R := (List.range F.length).map (fun i =>
    if i ∈ J then
      dotl (zj.map (fun zl => 1 / (Z.getD i 0 - zl))) (List.zipWith (· * ·) wj fj) /
        dotl (zj.map (fun zl => 1 / (Z.getD i 0 - zl))) wj
    else F.getD i 0)
  let err := normInf (List.zipWith (fun a b => a - b) F R)
  ⟨J, zj, fj, some wj, R, s.errors ++ [err]⟩

/-- One iteration of the `aaa` loop: pick the sample with the largest
absolute residual (`np.argmax`, first maximum) and run `aaaStepCore` on it.
When the picked index is no longer among the remaining indices `J`,
`J.remove(jj)` in the source raises `ValueError` and the whole call aborts;
the step then returns `none`. -/
def aaaStep (svd : List (List ℚ) → List ℚ) (Z F : List ℚ) (s : AAAState) :
    Option AAAState :=
  let jj := argmaxIdx (List.zipWith (fun a b => |a - b|) F s.R)
  if jj ∈ s.J then some (aaaStepCore svd Z F s jj) else none

/-- The `aaa` iteration with the convergence test of the source: run one step,
stop if the recorded error is at most `reltol`, otherwise continue, up to the
given number of remaining iterations; a failing step (the `ValueError` from
`J.remove`) aborts the whole run. -/
def aaaRun (svd : List (List ℚ) → List ℚ) (Z F : List ℚ) (reltol : ℚ) :
    ℕ → AAAState → Option AAAState
  | 0, s => some s
  | k + 1, s =>
    match aaaStep svd Z F s with
    | some t => if t.errors.getLastD 0 ≤ reltol then some t
                else aaaRun svd Z F reltol k t
    | none => none

/-- Initial `aaa` state: all indices remaining, empty support, no weight
vector yet, residual equal to the mean of `F` everywhere. -/
def aaaInit (F : List ℚ) : AAAState :=
  ⟨List.range F.length, [], [], none, F.map (fun _ => F.sum / (F.length : ℚ)), []⟩

/-- Translation of `aaa` (with `F` already sampled into an array, and the
error history always returned next to the function): run up to `mmax`
iterations with threshold `reltol = tol * ‖F‖∞` and build the returned
`BarycentricRational` from the selected support data and the last weight
vector.  `none` models the two error exits of the source: `mmax = 0` (where
`wj` is never assigned and the final line raises `NameError`) and an aborted
run (the `ValueError` from `J.remove`, reachable with a negative
tolerance). -/
def aaa (svd : List (List ℚ) → List ℚ) (Z F : List ℚ) (tol : ℚ) (mmax : ℕ) :
    Option (BarycentricRational × List ℚ) :=
  match aaaRun svd Z F (tol * normInf F) mmax (aaaInit F) with
  | some s =>
    match s.wj with
    | some w => some (⟨s.zj, s.fj, w⟩, s.errors)
    | none => none
  | none => none

section AAALemmas

lemma argmaxAux_lt (l : List ℚ) : ∀ (i bi : ℕ) (bv : ℚ),
    argmaxAux l i bi bv < max (bi + 1) (i + l.length) := by
  induction l with
  | nil =>
    intro i bi bv
    simp only [argmaxAux, List.length_nil]
    omega
  | cons x xs ih =>
    intro i bi bv
    simp only [argmaxAux, List.length_cons]
    by_cases h : bv < x
    · rw [if_pos h]
      have := ih (i + 1) i x
      omega
    · rw [if_neg h]
      have := ih (i + 1) bi bv
      omega

lemma argmaxIdx_lt {l : List ℚ} (h : l ≠ []) : argmaxIdx l < l.length := by
  match l with
  | [] => exact absurd rfl h
  | x :: xs =>
    simp only [argmaxIdx, List.length_cons]
    have := argmaxAux_lt xs 1 0 x
    omega

lemma getLastD_cons_of_ne {l : List ℚ} (h : l ≠ []) (a : ℚ) :
    (a :: l).getLastD 0 = l.getLastD 0 := by
  rw [List.getLastD_cons, List.getLastD_eq_getLast?, List.getLastD_eq_getLast?]
  cases hl : l.getLast? with
  | none => exact absurd (List.getLast?_eq_none_iff.mp hl) h
  | some y => rfl

lemma getD_map_range {α : Type} {f : ℕ → α} {d : α} {N k : ℕ} (hk : k < N) :
    ((List.range N).map f).getD k d = f k := by
  rw [List.getD_eq_getElem _ d (by simp [hk]), List.getElem_map, List.getElem_range]

lemma argmaxAux_spec (l : List ℚ) : ∀ (i bi : ℕ) (bv : ℚ),
    (argmaxAux l i bi bv = bi ∧ ∀ x ∈ l, x ≤ bv) ∨
    (∃ k, k < l.length ∧ argmaxAux l i bi bv = i + k ∧
      (∀ x ∈ l, x ≤ l.getD k 0) ∧ bv ≤ l.getD k 0) := by
  induction l with
  | nil =>
    intro i bi bv
    left
    exact ⟨rfl, by simp⟩
  | cons y ys ih =>
    intro i bi bv
    simp only [argmaxAux]
    by_cases hlt : bv < y
    · rw [if_pos hlt]
      rcases ih (i + 1) i y with ⟨heq, hub⟩ | ⟨k, hk, heq, hub, hbv⟩
      · right
        refine ⟨0, by simp, by simp [heq], ?_, ?_⟩
        · intro x hx
          rw [List.getD_cons_zero]
          rcases List.mem_cons.mp hx with rfl | hx2
          · exact le_refl _
          · exact hub x hx2
        · rw [List.getD_cons_zero]
          exact le_of_lt hlt
      · right
        refine ⟨k + 1, by simp only [List.length_cons]; omega,
          by rw [heq]; omega, ?_, ?_⟩
        · intro x hx
          rw [List.getD_cons_succ]
          rcases List.mem_cons.mp hx with rfl | hx2
          · exact hbv
          · exact hub x hx2
        · rw [List.getD_cons_succ]
          exact le_trans (le_of_lt hlt) hbv
    · rw [if_neg hlt]
      push_neg at hlt
      rcases ih (i + 1) bi bv with ⟨heq, hub⟩ | ⟨k, hk, heq, hub, hbv⟩
      · left
        refine ⟨heq, ?_⟩
        intro x hx
        rcases List.mem_cons.mp hx with rfl | hx2
        · exact hlt
        · exact hub x hx2
      · right
        refine ⟨k + 1, by simp only [List.length_cons]; omega,
          by rw [heq]; omega, ?_, ?_⟩
        · intro x hx
          rw [List.getD_cons_succ]
          rcases List.mem_cons.mp hx with rfl | hx2
          · exact le_trans hlt hbv
          · exact hub x hx2
        · rw [List.getD_cons_succ]
          exact hbv

lemma argmaxIdx_ub (l : List ℚ) : ∀ x ∈ l, x ≤ l.getD (argmaxIdx l) 0 := by
  match l with
  | [] =>
    intro x hx
    simp at hx
  | y :: ys =>
    intro x hx
    show x ≤ (y :: ys).getD (argmaxAux ys 1 0 y) 0
    rcases argmaxAux_spec ys 1 0 y with ⟨heq, hub⟩ | ⟨k, hk, heq, hub, hbv⟩
    · rw [heq, List.getD_cons_zero]
      rcases List.mem_cons.mp hx with rfl | hx2
      · exact le_refl _
      · exact hub x hx2
    · rw [heq, show 1 + k = k + 1 from by omega, List.getD_cons_succ]
      rcases List.mem_cons.mp hx with rfl | hx2
      · exact hbv
      · exact hub x hx2

lemma foldr_max_nonneg (l : List ℚ) : 0 ≤ l.foldr max 0 := by
  induction l with
  | nil => exact le_refl 0
  | cons x xs ih => exact le_trans ih (le_max_right x _)

lemma normInf_nonneg (l : List ℚ) : 0 ≤ normInf l :=
  foldr_max_nonneg (l.map (fun x => |x|))

lemma foldr_max_le {l : List ℚ} {c : ℚ} (h0 : 0 ≤ c) (h : ∀ x ∈ l, x ≤ c) :
    l.foldr max 0 ≤ c := by
  induction l with
  | nil => exact h0
  | cons x xs ih =>
    exact max_le (h x (List.mem_cons_self x xs))
      (ih (fun y hy => h y (List.mem_cons_of_mem x hy)))

lemma map_abs_zipWith (F R : List ℚ) :
    (List.zipWith (fun a b => a - b) F R).map (fun x => |x|) =
      List.zipWith (fun a b => |a - b|) F R := by
  induction F generalizing R with
  | nil => simp
  | cons a as ih =>
    cases R with
    | nil => simp
    | cons b bs => simp [ih]

/-- With a nonnegative threshold, the argmax index of the residual is always
still among the remaining indices: either no index has been removed yet, or
the loop continued past the convergence test, so the recorded error - the
largest absolute residual - is positive, while every index outside `J`
carries a residual of exactly zero. -/
lemma aaaStep_mem (F : List ℚ) (reltol : ℚ) (hrel : 0 ≤ reltol) (s : AAAState)
    (hF : 0 < F.length) (hR : s.R.length = F.length)
    (hsup : ∀ i, i < F.length → i ∉ s.J → s.R.getD i 0 = F.getD i 0)
    (hcase : (∀ i, i < F.length → i ∈ s.J) ∨
      (reltol < s.errors.getLastD 0 ∧
        s.errors.getLastD 0 = normInf (List.zipWith (fun a b => a - b) F s.R))) :
    argmaxIdx (List.zipWith (fun a b => |a - b|) F s.R) ∈ s.J := by
  have habs : (List.zipWith (fun a b => |a - b|) F s.R).length = F.length := by
    rw [List.length_zipWith, hR, min_self]
  have hne : List.zipWith (fun a b => |a - b|) F s.R ≠ [] := by
    intro h
    rw [h] at habs
    simp at habs
    omega
  have hjj : argmaxIdx (List.zipWith (fun a b => |a - b|) F s.R) < F.length := by
    have := argmaxIdx_lt hne
    rw [habs] at this
    exact this
  rcases hcase with hfull | ⟨hgt, hlastval⟩
  · exact hfull _ hjj
  · by_contra hnot
    have hjj2 : argmaxIdx (List.zipWith (fun a b => |a - b|) F s.R) <
        (List.zipWith (fun a b => |a - b|) F s.R).length := by
      rw [habs]
      exact hjj
    have h1 : s.R.getD (argmaxIdx (List.zipWith (fun a b => |a - b|) F s.R)) 0 =
        F.getD (argmaxIdx (List.zipWith (fun a b => |a - b|) F s.R)) 0 :=
      hsup _ hjj hnot
    rw [List.getD_eq_getElem s.R 0 (by rw [hR]; exact hjj),
      List.getD_eq_getElem F 0 hjj] at h1
    have hzero : (List.zipWith (fun a b => |a - b|) F s.R).getD
        (argmaxIdx (List.zipWith (fun a b => |a - b|) F s.R)) 0 = 0 := by
      rw [List.getD_eq_getElem _ 0 hjj2, List.getElem_zipWith, h1]
      simp
    have hub : ∀ x ∈ List.zipWith (fun a b => |a - b|) F s.R, x ≤ 0 := by
      intro x hx
      have h2 := argmaxIdx_ub (List.zipWith (fun a b => |a - b|) F s.R) x hx
      rw [hzero] at h2
      exact h2
    have hle : normInf (List.zipWith (fun a b => a - b) F s.R) ≤ 0 := by
      rw [show normInf (List.zipWith (fun a b => a - b) F s.R) =
          (List.zipWith (fun a b => |a - b|) F s.R).foldr max 0 from by
        simp only [normInf, map_abs_zipWith]]
      exact foldr_max_le (le_refl 0) hub
    rw [hlastval] at hgt
    linarith

lemma aaaStepCore_R_notmem (svd : List (List ℚ) → List ℚ) (Z F : List ℚ)
    (s : AAAState) (jj i : ℕ) (hi : i < F.length) (hnot : i ∉ s.J.erase jj) :
    (aaaStepCore svd Z F s jj).R.getD i 0 = F.getD i 0 := by
  simp only [aaaStepCore]
  rw [getD_map_range hi]
  exact if_neg hnot

lemma aaaStepCore_spec (svd : List (List ℚ) → List ℚ) (Z F : List ℚ)
    (s : AAAState) (jj : ℕ) (hjjZ : jj < Z.length) :
    (aaaStepCore svd Z F s jj).errors = s.errors ++
      [normInf (List.zipWith (fun a b => a - b) F (aaaStepCore svd Z F s jj).R)] ∧
    (aaaStepCore svd Z F s jj).zj = s.zj ++ [Z.getD jj 0] ∧
    Z.getD jj 0 ∈ Z ∧
    (aaaStepCore svd Z F s jj).fj.length = s.fj.length + 1 ∧
    (aaaStepCore svd Z F s jj).wj.isSome = true ∧
    (aaaStepCore svd Z F s jj).R.length = F.length ∧
    (∀ i, i < F.length → i ∉ (aaaStepCore svd Z F s jj).J →
      (aaaStepCore svd Z F s jj).R.getD i 0 = F.getD i 0) := by
  refine ⟨rfl, rfl, ?_, by simp [aaaStepCore], rfl, by simp [aaaStepCore], ?_⟩
  · rw [List.getD_eq_getElem Z 0 hjjZ]
    exact List.getElem_mem hjjZ
  · intro i hi hnot
    exact aaaStepCore_R_notmem svd Z F s jj i hi hnot

lemma aaaRun_spec (svd : List (List ℚ) → List ℚ) (Z F : List ℚ) (reltol : ℚ)
    (hZ : Z.length = F.length) (hF : 0 < F.length) (hrel : 0 ≤ reltol) :
    ∀ (fuel : ℕ) (s : AAAState), s.R.length = F.length →
      (∀ i, i < F.length → i ∉ s.J → s.R.getD i 0 = F.getD i 0) →
      ((∀ i, i < F.length → i ∈ s.J) ∨
        (reltol < s.errors.getLastD 0 ∧
          s.errors.getLastD 0 = normInf (List.zipWith (fun a b => a - b) F s.R))) →
      ∃ (t : AAAState) (e : List ℚ),
        aaaRun svd Z F reltol fuel s = some t ∧
        t.errors = s.errors ++ e ∧
        e.length ≤ fuel ∧
        (0 < fuel → e ≠ []) ∧
        t.zj.length = s.zj.length + e.length ∧
        t.fj.length = s.fj.length + e.length ∧
        (∀ i, i + 1 < e.length → reltol < e.getD i 0) ∧
        (e.length < fuel → e ≠ [] ∧ e.getLastD 0 ≤ reltol) ∧
        ((0 < fuel ∨ s.wj.isSome = true) → t.wj.isSome = true) ∧
        (∀ x ∈ t.zj, x ∈ s.zj ∨ x ∈ Z) := by
  intro fuel
  induction fuel with
  | zero =>
    intro s hs hsup hcase
    refine ⟨s, [], rfl, by simp, by simp, ?_, by simp, by simp, ?_, ?_, ?_, ?_⟩
    · intro h
      exact absurd h (by omega)
    · intro i hi
      simp at hi
    · intro h
      simp at h
    · intro h
      rcases h with h | h
      · exact absurd h (by omega)
      · exact h
    · intro x hx
      exact Or.inl hx
  | succ k ih =>
    intro s hs hsup hcase
    have hmem : argmaxIdx (List.zipWith (fun a b => |a - b|) F s.R) ∈ s.J :=
      aaaStep_mem F reltol hrel s hF hs hsup hcase
    have habs : (List.zipWith (fun a b => |a - b|) F s.R).length = F.length := by
      rw [List.length_zipWith, hs, min_self]
    have hne : List.zipWith (fun a b => |a - b|) F s.R ≠ [] := by
      intro h
      rw [h] at habs
      simp at habs
      omega
    have hjjZ : argmaxIdx (List.zipWith (fun a b => |a - b|) F s.R) < Z.length := by
      have := argmaxIdx_lt hne
      rw [habs] at this
      omega
    have hstep : aaaStep svd Z F s = some (aaaStepCore svd Z F s
        (argmaxIdx (List.zipWith (fun a b => |a - b|) F s.R))) := by
      simp only [aaaStep]
      rw [if_pos hmem]
    obtain ⟨he0, hzj0, hznZ, hfj0, hwj0, hR0, hsup0⟩ :=
      aaaStepCore_spec svd Z F s
        (argmaxIdx (List.zipWith (fun a b => |a - b|) F s.R)) hjjZ
    have hlast : (aaaStepCore svd Z F s
        (argmaxIdx (List.zipWith (fun a b => |a - b|) F s.R))).errors.getLastD 0 =
        normInf (List.zipWith (fun a b => a - b) F
          (aaaStepCore svd Z F s
            (argmaxIdx (List.zipWith (fun a b => |a - b|) F s.R))).R) := by
      rw [he0]
      exact List.getLastD_concat _ _ _
    by_cases hstop : (aaaStepCore svd Z F s
        (argmaxIdx (List.zipWith (fun a b => |a - b|) F s.R))).errors.getLastD 0 ≤
        reltol
    · -- the loop breaks at this iteration
      have hrun : aaaRun svd Z F reltol (k + 1) s = some (aaaStepCore svd Z F s
          (argmaxIdx (List.zipWith (fun a b => |a - b|) F s.R))) := by
        simp only [aaaRun, hstep]
        rw [if_pos hstop]
      refine ⟨aaaStepCore svd Z F s
          (argmaxIdx (List.zipWith (fun a b => |a - b|) F s.R)),
        [normInf (List.zipWith (fun a b => a - b) F
          (aaaStepCore svd Z F s
            (argmaxIdx (List.zipWith (fun a b => |a - b|) F s.R))).R)],
        hrun, he0, by simp, fun _ => by simp, ?_, ?_, ?_, ?_, ?_, ?_⟩
      · rw [hzj0]
        simp
      · rw [hfj0]
        rfl
      · intro i hi
        simp at hi
      · intro _
        refine ⟨by simp, ?_⟩
        rw [show ([normInf (List.zipWith (fun a b => a - b) F
            (aaaStepCore svd Z F s
              (argmaxIdx (List.zipWith (fun a b => |a - b|) F s.R))).R)] :
            List ℚ).getLastD 0 = normInf (List.zipWith (fun a b => a - b) F
            (aaaStepCore svd Z F s
              (argmaxIdx (List.zipWith (fun a b => |a - b|) F s.R))).R) from rfl]
        rw [hlast] at hstop
        exact hstop
      · intro _
        exact hwj0
      · intro x hx
        rw [hzj0] at hx
        rcases List.mem_append.mp hx with h | h
        · exact Or.inl h
        · rw [List.mem_singleton.mp h]
          exact Or.inr hznZ
    · -- the loop continues with the next state
      have hrun : aaaRun svd Z F reltol (k + 1) s =
          aaaRun svd Z F reltol k (aaaStepCore svd Z F s
            (argmaxIdx (List.zipWith (fun a b => |a - b|) F s.R))) := by
        simp only [aaaRun, hstep]
        rw [if_neg hstop]
      have hgt : reltol < (aaaStepCore svd Z F s
          (argmaxIdx (List.zipWith (fun a b => |a - b|) F s.R))).errors.getLastD 0 :=
        lt_of_not_le hstop
      have hgt2 : reltol < normInf (List.zipWith (fun a b => a - b) F
          (aaaStepCore svd Z F s
            (argmaxIdx (List.zipWith (fun a b => |a - b|) F s.R))).R) := by
        rw [← hlast]
        exact hgt
      obtain ⟨t, e, hrunIH, herr, helen, hene, hzj, hfj, hearly, hstopped, hwj,
        hmemIH⟩ := ih (aaaStepCore svd Z F s
          (argmaxIdx (List.zipWith (fun a b => |a - b|) F s.R))) hR0 hsup0
          (Or.inr ⟨hgt, hlast⟩)
      refine ⟨t, normInf (List.zipWith (fun a b => a - b) F
          (aaaStepCore svd Z F s
            (argmaxIdx (List.zipWith (fun a b => |a - b|) F s.R))).R) :: e,
        ?_, ?_, ?_, fun _ => by simp, ?_, ?_, ?_, ?_, ?_, ?_⟩
      · rw [hrun]
        exact hrunIH
      · rw [herr, he0]
        simp
      · simp only [List.length_cons]
        omega
      · rw [hzj, hzj0]
        simp
        omega
      · rw [hfj, hfj0]
        simp
        omega
      · intro i hi
        match i with
        | 0 => exact hgt2
        | i + 1 =>
          simp only [List.getD_cons_succ]
          apply hearly
          simp at hi
          omega
      · intro hlt
        have hlt2 : e.length < k := by
          simp at hlt
          omega
        obtain ⟨hene2, hle⟩ := hstopped hlt2
        refine ⟨by simp, ?_⟩
        rw [getLastD_cons_of_ne hene2]
        exact hle
      · intro _
        exact hwj (Or.inr hwj0)
      · intro x hx
        rcases hmemIH x hx with h | h
        · rw [hzj0] at h
          rcases List.mem_append.mp h with h2 | h2
          · exact Or.inl h2
          · rw [List.mem_singleton.mp h2]
            exact Or.inr hznZ
        · exact Or.inr h

/-- Equation for one unfolding of `aaaRun` at a successor fuel value. -/
lemma aaaRun_succ_eq (svd : List (List ℚ) → List ℚ) (Z F : List ℚ)
    (reltol : ℚ) (k : ℕ) (s : AAAState) :
    aaaRun svd Z F reltol (k + 1) s =
      match aaaStep svd Z F s with
      | some t => if t.errors.getLastD 0 ≤ reltol then some t
                  else aaaRun svd Z F reltol k t
      | none => none := rfl

end AAALemmas

/-- C4 counterexample: with the negative tolerance `-1` on the one-sample set
`Z = [0]`, `F = [1]`, the convergence test `error ≤ tol * ‖F‖∞ = -1` can
never hold (recorded errors are sup norms, hence nonnegative), the first
iteration turns the only sample into a support point and leaves a residual
of exactly zero, and the second iteration picks `jj = 0` which is no longer
in the now-empty `J`: `J.remove(jj)` raises `ValueError` with `mmax = 2`
iterations still allowed, so `aaa` does not return a `BarycentricRational`
- the loop neither breaks at the threshold nor completes `mmax`
iterations, against the claimed behaviour. -/
theorem aaa_negative_tol_crash :
    aaa (fun _ => [1]) [0] [1] (-1 : ℚ) 2 = none := by
  have hinit : aaaInit [(1 : ℚ)] = ⟨[0], [], [], none, [1], []⟩ := by
    norm_num [aaaInit, List.range_succ]
  have hs1 : aaaStep (fun _ => [1]) [0] [1]
      (⟨[0], [], [], none, [1], []⟩ : AAAState) =
      some ⟨[], [0], [1], some [1], [1], [0]⟩ := by
    norm_num [aaaStep, aaaStepCore, argmaxIdx, argmaxAux, normInf, dotl,
      List.range_succ]
  have hs2 : aaaStep (fun _ => [1]) [0] [1]
      (⟨[], [0], [1], some [1], [1], [0]⟩ : AAAState) = none := by
    simp [aaaStep]
  have hrun2 : aaaRun (fun _ => [1]) [0] [1] (-1 : ℚ) 1
      (⟨[], [0], [1], some [1], [1], [0]⟩ : AAAState) = none := by
    rw [show (1 : ℕ) = 0 + 1 from rfl, aaaRun_succ_eq, hs2]
  have hrun1 : aaaRun (fun _ => [1]) [0] [1] (-1 : ℚ) 2
      (⟨[0], [], [], none, [1], []⟩ : AAAState) = none := by
    rw [show (2 : ℕ) = 1 + 1 from rfl, aaaRun_succ_eq, hs1]
    norm_num [List.getLastD_cons, List.getLastD_nil, hrun2]
  have hfac : (-1 : ℚ) * normInf [(1 : ℚ)] = -1 := by
    norm_num [normInf]
  simp only [aaa, hinit, hfac, hrun1]

/-- C4 (amended): for a nonnegative tolerance the `aaa` loop performs at most
`mmax` iterations; it breaks at the first iteration whose recorded sup-norm
error is at most `tol * ‖F‖∞` (all errors before the last recorded one exceed
the threshold, and if fewer than `mmax` iterations ran, the last one met it),
and it returns a `BarycentricRational` built from the support points selected
so far - one node per iteration, each taken from the sample set `Z`.  The
restriction to `0 ≤ tol` is necessary: with a negative tolerance the loop can
exhaust the sample set, and the source then raises `ValueError` from
`J.remove` instead of returning. -/
theorem aaa_termination (svd : List (List ℚ) → List ℚ) (Z F : List ℚ)
    (tol : ℚ) (mmax : ℕ) (hZ : Z.length = F.length) (hF : 0 < F.length)
    (hm : 0 < mmax) (htol : 0 ≤ tol) :
    ∃ r errs, aaa svd Z F tol mmax = some (r, errs) ∧
      0 < errs.length ∧ errs.length ≤ mmax ∧
      (∀ i, i + 1 < errs.length → tol * normInf F < errs.getD i 0) ∧
      (errs.length < mmax → errs.getLastD 0 ≤ tol * normInf F) ∧
      r.nodes.length = errs.length ∧ r.values.length = errs.length ∧
      (∀ x ∈ r.nodes, x ∈ Z) := by
  have hrel : 0 ≤ tol * normInf F := mul_nonneg htol (normInf_nonneg F)
  have hinitR : (aaaInit F).R.length = F.length := by
    simp [aaaInit]
  have hinitsup : ∀ i, i < F.length → i ∉ (aaaInit F).J →
      (aaaInit F).R.getD i 0 = F.getD i 0 := by
    intro i hi hnot
    exact absurd (List.mem_range.mpr hi) hnot
  obtain ⟨t, e, hrun, he, helen, hene, hzj, hfj, hearly, hstopped, hwj, hmem⟩ :=
    aaaRun_spec svd Z F (tol * normInf F) hZ hF hrel mmax (aaaInit F) hinitR
      hinitsup (Or.inl (fun i hi => List.mem_range.mpr hi))
  have hwjs : t.wj.isSome = true := hwj (Or.inl hm)
  obtain ⟨w, hw⟩ := Option.isSome_iff_exists.mp hwjs
  have herrs : t.errors = e := by
    rw [he]
    simp [aaaInit]
  refine ⟨⟨t.zj, t.fj, w⟩, e, ?_, ?_, helen, hearly, ?_, ?_, ?_, ?_⟩
  · simp only [aaa, hrun, hw, herrs]
  · have h1 : e ≠ [] := hene hm
    exact List.length_pos.mpr h1
  · intro hlt
    exact (hstopped hlt).2
  · rw [show (⟨t.zj, t.fj, w⟩ : BarycentricRational).nodes = t.zj from rfl, hzj]
    simp [aaaInit]
  · rw [show (⟨t.zj, t.fj, w⟩ : BarycentricRational).values = t.fj from rfl, hfj]
    simp [aaaInit]
  · intro x hx
    rcases hmem x hx with h | h
    · simp [aaaInit] at h
    · exact h

/-- Concrete instance of `aaa_termination` on two samples with a constant SVD
oracle and zero tolerance. -/
theorem aaa_termination_witness :
    (([(0 : ℚ), 1]).length = ([(1 : ℚ), 2]).length ∧
      0 < ([(1 : ℚ), 2]).length ∧ 0 < 2 ∧ (0 : ℚ) ≤ 0) ∧
    ∃ r errs, aaa (fun _ => [1]) [0, 1] [1, 2] 0 2 = some (r, errs) ∧
      0 < errs.length ∧ errs.length ≤ 2 ∧ ∀ x ∈ r.nodes, x ∈ ([(0 : ℚ), 1]) := by
  refine ⟨⟨by decide, by decide, by decide, le_refl 0⟩, ?_⟩
  obtain ⟨r, errs, h1, h2, h3, _, _, _, _, h8⟩ :=
    aaa_termination (fun _ => [1]) [0, 1] [1, 2] 0 2 (by decide) (by decide)
      (by decide) (le_refl 0)
  exact ⟨r, errs, h1, h2, h3, h8⟩

/-- Bracket state of one interior-interval search: the triple
`(z0, z1, z2)` of the vectorized search and the value `v = g(z1)` of the
current best point. -/
structure GState where
  z0 : ℚ
  z1 : ℚ
  z2 : ℚ
  v : ℚ

/-- One iteration of `local_maxima_bisect` on one interval (the numpy loop
acts columnwise, i.e. independently per interval): compute the two quarter
points and re-center the bracket on the best of the three candidates
(`np.argmax` takes the first maximum). -/
def bisect_step (g : ℚ → ℚ) (s : GState) : GState :=
  let q0 := (s.z0 + s.z1) / 2
  let q1 := (s.z1 + s.z2) / 2
  let g0 := g q0
  let g1 := g q1
  if g0 ≥ s.v ∧ g0 ≥ g1 then ⟨s.z0, q0, s.z1, g0⟩
  else if s.v ≥ g1 then ⟨q0, s.z1, q1, s.v⟩
  else ⟨s.z1, q1, s.z2, g1⟩

/-- One iteration of the vectorized golden-section search of
`local_maxima_golden` on one interval.  The parameter `gm` is the golden mean
`(3 - sqrt 5)/2 ~ 0.382` of the source, kept abstract because the square root
is a floating-point computation; the theorems below assume only
`0 ≤ gm ≤ 1`. -/
def golden_step (gm : ℚ) (g : ℚ → ℚ) (s : GState) : GState :=
  let mid := (s.z0 + s.z2) / 2
  let far := if s.z1 ≤ mid then s.z2 else s.z0
  let x := s.z1 + gm * (far - s.z1)
  let gx := g x
  if gx > s.v then
    if x > s.z1 then ⟨s.z1, x, s.z2, gx⟩ else ⟨s.z0, x, s.z1, gx⟩
  else
    if x < s.z1 then ⟨x, s.z1, s.z2, s.v⟩ else ⟨s.z0, s.z1, x, s.v⟩

/-- The main bracketed loop of `_golden_search`: `n` golden-section
refinements of the bracket `(a, c)` around the current best point `b` with
value `gb`. -/
def golden_core (gm : ℚ) (g : ℚ → ℚ) : ℕ → ℚ → ℚ → ℚ → ℚ → ℚ × ℚ
  | 0, _, _, b, gb => (b, gb)
  | n + 1, a, c, b, gb =>
    let mid := (a + c) / 2
    let x := if b > mid then b + gm * (a - b) else b + gm * (c - b)
    let gx := g x
    if gx > gb then
      if x > b then golden_core gm g n b c x gx else golden_core gm g n a b x gx
    else
      if x < b then golden_core gm g n x c b gb else golden_core gm g n a x b gb

/-- The shrinking loop of `_boundary_search`: endpoints with their values, a
flag recording whether the left endpoint holds the larger value, and the
golden-section continuation `gs` invoked when an interior point at least as
large as the best endpoint is found (receiving the remaining iteration count
and the current endpoints, as in the source). -/
def bs_run (g : ℚ → ℚ) (gs : ℕ → ℚ → ℚ → ℚ × ℚ) :
    ℕ → ℚ → ℚ → ℚ → ℚ → Bool → ℚ × ℚ
  | 0, X0, X1, v0, v1, ms => if ms then (X0, v0) else (X1, v1)
  | n + 1, X0, X1, v0, v1, ms =>
    let xm := (X0 + X1) / 2
    let gxm := g xm
    if gxm < (if ms then v0 else v1) then
      if ms then bs_run g gs n X0 xm v0 gxm ms
      else bs_run g gs n xm X1 gxm v1 ms
    else gs (n + 1) X0 X1

/-- Translation of `_golden_search` with an explicit bound `d` on the depth of
its mutual recursion with `_boundary_search`.  Any executed switch from the
boundary loop to the golden search happens on a verified bracket, so the
fallback branch never recurses in a reachable run; the fuel only makes the
translation structurally terminating, and the properties proved below hold
for every fuel value. -/
def golden_search (gm : ℚ) (g : ℚ → ℚ) : ℕ → ℕ → ℚ → ℚ → ℚ × ℚ
  | 0, n, a, c =>
    let b := (a + c) / 2
    let gb := g b
    if gb ≥ g a ∧ gb ≥ g c then golden_core gm g n a c b gb else (b, gb)
  | d + 1, n, a, c =>
    let b := (a + c) / 2
    let gb := g b
    if gb ≥ g a ∧ gb ≥ g c then golden_core gm g n a c b gb
    else bs_run g (fun n' a' c' => golden_search gm g d n' a' c') n a c
      (g a) (g c) (decide (g a ≥ g c))

/-- Translation of `_boundary_search`: starting from the endpoint values (the
side with the larger value is the current maximum), shrink toward the maximum
side by bisection and switch to `_golden_search` once a bracket is found. -/
def boundary_search (gm : ℚ) (g : ℚ → ℚ) (a c : ℚ) (n : ℕ) : ℚ × ℚ :=
  bs_run g (fun n' a' c' => golden_search gm g n n' a' c') n a c (g a) (g c)
    (decide (g a ≥ g c))

/-- Translation of `local_maxima_bisect`, returning the `(location, value)`
pairs: the interior intervals evolve independently under `bisect_step`, and
the two boundary intervals are handled by `_boundary_search` with 3
iterations. -/
def local_maxima_bisect (gm : ℚ) (g : ℚ → ℚ) (nodes : List ℚ) (num_iter : ℕ) :
    List (ℚ × ℚ) :=
  let m := nodes.length - 3
  let interior := (List.range m).map (fun j =>
    let L := nodes.getD (j + 1) 0
    let R := nodes.getD (j + 2) 0
    let s := (bisect_step g)^[num_iter] ⟨L, (L + R) / 2, R, g ((L + R) / 2)⟩
    (s.z1, s.v))
  [boundary_search gm g (nodes.getD 0 0) (nodes.getD 1 0) 3] ++ interior ++
    [boundary_search gm g (nodes.getD (nodes.length - 2) 0)
      (nodes.getD (nodes.length - 1) 0) 3]

/-- Translation of `local_maxima_golden`, returning the `(location, value)`
pairs. -/
def local_maxima_golden (gm : ℚ) (g : ℚ → ℚ) (nodes : List ℚ) (num_iter : ℕ) :
    List (ℚ × ℚ) :=
  let m := nodes.length - 3
  let interior := (List.range m).map (fun j =>
    let L := nodes.getD (j + 1) 0
    let R := nodes.getD (j + 2) 0
    let s := (golden_step gm g)^[num_iter]
      ⟨L, L + (R - L) * gm, R, g (L + (R - L) * gm)⟩
    (s.z1, s.v))
  [boundary_search gm g (nodes.getD 0 0) (nodes.getD 1 0) 3] ++ interior ++
    [boundary_search gm g (nodes.getD (nodes.length - 2) 0)
      (nodes.getD (nodes.length - 1) 0) 3]

/-- `np.linspace(a, b, N, endpoint)`: `N` uniform samples starting at `a`,
including `b` exactly when `endpoint` is set. -/
def linspace (a b : ℚ) (N : ℕ) (endpoint : Bool) : List ℚ :=
  if endpoint then
    (List.range N).map (fun k : ℕ => a + (b - a) * (k : ℚ) / ((N : ℚ) - 1))
  else
    (List.range N).map (fun k : ℕ => a + (b - a) * (k : ℚ) / (N : ℚ))

/-- Translation of `local_maxima_sample`: the `_piecewise_mesh` rows (one
uniform `N`-point mesh per subinterval, right endpoint included only on the
last) with a per-row first-maximum argmax. -/
def local_maxima_sample (g : ℚ → ℚ) (nodes : List ℚ) (N : ℕ) :
    List (ℚ × ℚ) :=
  (List.range (nodes.length - 1)).map (fun j =>
    let row := linspace (nodes.getD j 0) (nodes.getD (j + 1) 0) N
      (decide (j = nodes.length - 2))
    let vals := row.map g
    let kk := argmaxIdx vals
    (row.getD kk 0, vals.getD kk 0))

section LocalMaxLemmas

lemma bisect_step_inv (g : ℚ → ℚ) (s : GState) (h01 : s.z0 ≤ s.z1)
    (h12 : s.z1 ≤ s.z2) (hv : s.v = g s.z1) :
    s.z0 ≤ (bisect_step g s).z0 ∧ (bisect_step g s).z0 ≤ (bisect_step g s).z1 ∧
    (bisect_step g s).z1 ≤ (bisect_step g s).z2 ∧ (bisect_step g s).z2 ≤ s.z2 ∧
    (bisect_step g s).v = g (bisect_step g s).z1 := by
  simp only [bisect_step]
  split_ifs <;> dsimp only <;>
    refine ⟨by linarith, by linarith, by linarith, by linarith, ?_⟩
  · rfl
  · exact hv
  · rfl

lemma bisect_iter_inv (g : ℚ → ℚ) : ∀ (n : ℕ) (s : GState),
    s.z0 ≤ s.z1 → s.z1 ≤ s.z2 → s.v = g s.z1 →
    s.z0 ≤ ((bisect_step g)^[n] s).z0 ∧
    ((bisect_step g)^[n] s).z0 ≤ ((bisect_step g)^[n] s).z1 ∧
    ((bisect_step g)^[n] s).z1 ≤ ((bisect_step g)^[n] s).z2 ∧
    ((bisect_step g)^[n] s).z2 ≤ s.z2 ∧
    ((bisect_step g)^[n] s).v = g (((bisect_step g)^[n] s).z1) := by
  intro n
  induction n with
  | zero =>
    intro s h01 h12 hv
    rw [Function.iterate_zero_apply]
    exact ⟨le_refl _, h01, h12, le_refl _, hv⟩
  | succ n ih =>
    intro s h01 h12 hv
    rw [Function.iterate_succ_apply]
    obtain ⟨a1, a2, a3, a4, a5⟩ := bisect_step_inv g s h01 h12 hv
    obtain ⟨b1, b2, b3, b4, b5⟩ := ih (bisect_step g s) a2 a3 a5
    exact ⟨le_trans a1 b1, b2, b3, le_trans b4 a4, b5⟩

lemma golden_step_inv (gm : ℚ) (g : ℚ → ℚ) (hgm0 : 0 ≤ gm) (hgm1 : gm ≤ 1)
    (s : GState) (h01 : s.z0 ≤ s.z1) (h12 : s.z1 ≤ s.z2) (hv : s.v = g s.z1) :
    s.z0 ≤ (golden_step gm g s).z0 ∧
    (golden_step gm g s).z0 ≤ (golden_step gm g s).z1 ∧
    (golden_step gm g s).z1 ≤ (golden_step gm g s).z2 ∧
    (golden_step gm g s).z2 ≤ s.z2 ∧
    (golden_step gm g s).v = g (golden_step gm g s).z1 := by
  have hb1 : s.z1 ≤ s.z1 + gm * (s.z2 - s.z1) := by nlinarith
  have hb2 : s.z1 + gm * (s.z2 - s.z1) ≤ s.z2 := by nlinarith
  have hb3 : s.z0 ≤ s.z1 + gm * (s.z0 - s.z1) := by nlinarith
  have hb4 : s.z1 + gm * (s.z0 - s.z1) ≤ s.z1 := by nlinarith
  simp only [golden_step]
  split_ifs <;> dsimp only <;>
    refine ⟨by linarith, by linarith, by linarith, by linarith, ?_⟩ <;>
    first | rfl | exact hv

lemma golden_iter_inv (gm : ℚ) (g : ℚ → ℚ) (hgm0 : 0 ≤ gm) (hgm1 : gm ≤ 1) :
    ∀ (n : ℕ) (s : GState),
    s.z0 ≤ s.z1 → s.z1 ≤ s.z2 → s.v = g s.z1 →
    s.z0 ≤ ((golden_step gm g)^[n] s).z0 ∧
    ((golden_step gm g)^[n] s).z0 ≤ ((golden_step gm g)^[n] s).z1 ∧
    ((golden_step gm g)^[n] s).z1 ≤ ((golden_step gm g)^[n] s).z2 ∧
    ((golden_step gm g)^[n] s).z2 ≤ s.z2 ∧
    ((golden_step gm g)^[n] s).v = g (((golden_step gm g)^[n] s).z1) := by
  intro n
  induction n with
  | zero =>
    intro s h01 h12 hv
    rw [Function.iterate_zero_apply]
    exact ⟨le_refl _, h01, h12, le_refl _, hv⟩
  | succ n ih =>
    intro s h01 h12 hv
    rw [Function.iterate_succ_apply]
    obtain ⟨a1, a2, a3, a4, a5⟩ := golden_step_inv gm g hgm0 hgm1 s h01 h12 hv
    obtain ⟨b1, b2, b3, b4, b5⟩ := ih (golden_step gm g s) a2 a3 a5
    exact ⟨le_trans a1 b1, b2, b3, le_trans b4 a4, b5⟩

lemma golden_core_inv (gm : ℚ) (g : ℚ → ℚ) (hgm0 : 0 ≤ gm) (hgm1 : gm ≤ 1) :
    ∀ (n : ℕ) (a c b gb : ℚ), a ≤ b → b ≤ c → gb = g b →
      a ≤ (golden_core gm g n a c b gb).1 ∧ (golden_core gm g n a c b gb).1 ≤ c ∧
      (golden_core gm g n a c b gb).2 = g (golden_core gm g n a c b gb).1 := by
  intro n
  induction n with
  | zero =>
    intro a c b gb hab hbc hgb
    exact ⟨hab, hbc, hgb⟩
  | succ n ih =>
    intro a c b gb hab hbc hgb
    have hb1 : a ≤ b + gm * (a - b) := by nlinarith
    have hb2 : b + gm * (a - b) ≤ b := by nlinarith
    have hb3 : b ≤ b + gm * (c - b) := by nlinarith
    have hb4 : b + gm * (c - b) ≤ c := by nlinarith
    simp only [golden_core]
    split_ifs with h1 h2 h3 h2 h3 h3
    · obtain ⟨p1, p2, p3⟩ := ih b c (b + gm * (a - b)) (g (b + gm * (a - b)))
        (by linarith) (by linarith) rfl
      exact ⟨by linarith, p2, p3⟩
    · obtain ⟨p1, p2, p3⟩ := ih a b (b + gm * (a - b)) (g (b + gm * (a - b)))
        (by linarith) (by linarith) rfl
      exact ⟨p1, by linarith, p3⟩
    · obtain ⟨p1, p2, p3⟩ := ih (b + gm * (a - b)) c b gb (by linarith)
        (by linarith) hgb
      exact ⟨by linarith, p2, p3⟩
    · obtain ⟨p1, p2, p3⟩ := ih a (b + gm * (a - b)) b gb (by linarith)
        (by linarith) hgb
      exact ⟨p1, by linarith, p3⟩
    · obtain ⟨p1, p2, p3⟩ := ih b c (b + gm * (c - b)) (g (b + gm * (c - b)))
        (by linarith) (by linarith) rfl
      exact ⟨by linarith, p2, p3⟩
    · obtain ⟨p1, p2, p3⟩ := ih a b (b + gm * (c - b)) (g (b + gm * (c - b)))
        (by linarith) (by linarith) rfl
      exact ⟨p1, by linarith, p3⟩
    · obtain ⟨p1, p2, p3⟩ := ih (b + gm * (c - b)) c b gb (by linarith)
        (by linarith) hgb
      exact ⟨by linarith, p2, p3⟩
    · obtain ⟨p1, p2, p3⟩ := ih a (b + gm * (c - b)) b gb (by linarith)
        (by linarith) hgb
      exact ⟨p1, by linarith, p3⟩

lemma bs_run_inv (g : ℚ → ℚ) (gs : ℕ → ℚ → ℚ → ℚ × ℚ)
    (hgs : ∀ n a c, a ≤ c →
      a ≤ (gs n a c).1 ∧ (gs n a c).1 ≤ c ∧ (gs n a c).2 = g (gs n a c).1) :
    ∀ (n : ℕ) (X0 X1 v0 v1 : ℚ) (ms : Bool), X0 ≤ X1 → v0 = g X0 → v1 = g X1 →
      X0 ≤ (bs_run g gs n X0 X1 v0 v1 ms).1 ∧
      (bs_run g gs n X0 X1 v0 v1 ms).1 ≤ X1 ∧
      (bs_run g gs n X0 X1 v0 v1 ms).2 = g (bs_run g gs n X0 X1 v0 v1 ms).1 := by
  intro n
  induction n with
  | zero =>
    intro X0 X1 v0 v1 ms h01 hv0 hv1
    simp only [bs_run]
    split_ifs
    · exact ⟨le_refl _, h01, hv0⟩
    · exact ⟨h01, le_refl _, hv1⟩
  | succ n ih =>
    intro X0 X1 v0 v1 ms h01 hv0 hv1
    have hm0 : X0 ≤ (X0 + X1) / 2 := by linarith
    have hm1 : (X0 + X1) / 2 ≤ X1 := by linarith
    simp only [bs_run]
    split_ifs with h1 h2 h3
    · obtain ⟨p1, p2, p3⟩ := ih X0 ((X0 + X1) / 2) v0 (g ((X0 + X1) / 2)) ms
        hm0 hv0 rfl
      exact ⟨p1, by linarith, p3⟩
    · exact hgs (n + 1) X0 X1 h01
    · obtain ⟨p1, p2, p3⟩ := ih ((X0 + X1) / 2) X1 (g ((X0 + X1) / 2)) v1 ms
        hm1 rfl hv1
      exact ⟨by linarith, p2, p3⟩
    · exact hgs (n + 1) X0 X1 h01

lemma golden_search_inv (gm : ℚ) (g : ℚ → ℚ) (hgm0 : 0 ≤ gm) (hgm1 : gm ≤ 1) :
    ∀ (d n : ℕ) (a c : ℚ), a ≤ c →
      a ≤ (golden_search gm g d n a c).1 ∧ (golden_search gm g d n a c).1 ≤ c ∧
      (golden_search gm g d n a c).2 = g (golden_search gm g d n a c).1 := by
  intro d
  induction d with
  | zero =>
    intro n a c hac
    simp only [golden_search]
    split_ifs with h
    · exact golden_core_inv gm g hgm0 hgm1 n a c _ _ (by linarith) (by linarith) rfl
    · exact ⟨by linarith, by linarith, rfl⟩
  | succ d ih =>
    intro n a c hac
    simp only [golden_search]
    split_ifs with h
    · exact golden_core_inv gm g hgm0 hgm1 n a c _ _ (by linarith) (by linarith) rfl
    · exact bs_run_inv g _ (fun n' a' c' hac' => ih n' a' c' hac') n a c
        (g a) (g c) _ hac rfl rfl

lemma boundary_search_inv (gm : ℚ) (g : ℚ → ℚ) (hgm0 : 0 ≤ gm) (hgm1 : gm ≤ 1)
    (a c : ℚ) (n : ℕ) (hac : a ≤ c) :
    a ≤ (boundary_search gm g a c n).1 ∧ (boundary_search gm g a c n).1 ≤ c ∧
    (boundary_search gm g a c n).2 = g (boundary_search gm g a c n).1 := by
  unfold boundary_search
  exact bs_run_inv g _
    (fun n' a' c' hac' => golden_search_inv gm g hgm0 hgm1 n n' a' c' hac')
    n a c (g a) (g c) _ hac rfl rfl

lemma getD_map_fun {row : List ℚ} {g : ℚ → ℚ} {k : ℕ} (hk : k < row.length) :
    (row.map g).getD k 0 = g (row.getD k 0) := by
  rw [List.getD_eq_getElem _ 0 (by simp [hk]), List.getElem_map,
    List.getD_eq_getElem _ 0 hk]

lemma linspace_length (a b : ℚ) (N : ℕ) (e : Bool) :
    (linspace a b N e).length = N := by
  unfold linspace
  split_ifs <;> rw [List.length_map, List.length_range]

lemma linspace_mem (a b : ℚ) (N : ℕ) (e : Bool) (k : ℕ) (hab : a ≤ b)
    (hk : k < N) :
    a ≤ (linspace a b N e).getD k 0 ∧ (linspace a b N e).getD k 0 ≤ b := by
  have key : ∀ t : ℚ, 0 ≤ t → t ≤ 1 →
      a ≤ a + (b - a) * t ∧ a + (b - a) * t ≤ b := by
    intro t h0 h1
    constructor <;> nlinarith
  unfold linspace
  split_ifs with he
  · rw [getD_map_range hk, mul_div_assoc]
    by_cases hN1 : N = 1
    · subst hN1
      have hk0 : k = 0 := by omega
      subst hk0
      norm_num
      exact hab
    · have hN2 : 2 ≤ N := by omega
      have hd : (0 : ℚ) < (N : ℚ) - 1 := by
        have : (2 : ℚ) ≤ (N : ℚ) := by exact_mod_cast hN2
        linarith
      refine key _ (div_nonneg (by positivity) (le_of_lt hd)) ?_
      rw [div_le_one hd]
      have : (k : ℚ) + 1 ≤ (N : ℚ) := by exact_mod_cast hk
      linarith
  · rw [getD_map_range hk, mul_div_assoc]
    have hd : (0 : ℚ) < (N : ℚ) := by
      have hNpos : 0 < N := by omega
      exact_mod_cast hNpos
    refine key _ (div_nonneg (by positivity) (le_of_lt hd)) ?_
    rw [div_le_one hd]
    exact_mod_cast hk.le

lemma sorted_getD_le {z : List ℚ} (h : z.Pairwise (· ≤ ·)) {i j : ℕ}
    (hij : i ≤ j) (hj : j < z.length) : z.getD i 0 ≤ z.getD j 0 := by
  rcases Nat.eq_or_lt_of_le hij with he | hlt
  · subst he
    exact le_refl _
  · rw [List.getD_eq_getElem z 0 (lt_of_le_of_lt hij hj),
      List.getD_eq_getElem z 0 hj]
    exact List.pairwise_iff_getElem.mp h i j _ hj hlt

lemma pairwise_fst_of_contained {res : List (ℚ × ℚ)} {nodes : List ℚ} {m : ℕ}
    (hrlen : res.length = m + 2) (hnlen : nodes.length = m + 3)
    (hsort : nodes.Pairwise (· ≤ ·))
    (hcont : ∀ j, j < m + 2 → nodes.getD j 0 ≤ (res.getD j (0, 0)).1 ∧
      (res.getD j (0, 0)).1 ≤ nodes.getD (j + 1) 0) :
    List.Pairwise (fun p q => p.1 ≤ q.1) res := by
  rw [List.pairwise_iff_getElem]
  intro i j hi hj hij
  have hi' : i < m + 2 := by omega
  have hj' : j < m + 2 := by omega
  have h1 := (hcont i hi').2
  have h2 := (hcont j hj').1
  have h3 : nodes.getD (i + 1) 0 ≤ nodes.getD j 0 :=
    sorted_getD_le hsort (by omega) (by omega)
  have e1 : res[i] = res.getD i (0, 0) := (List.getD_eq_getElem _ _ hi).symm
  have e2 : res[j] = res.getD j (0, 0) := (List.getD_eq_getElem _ _ hj).symm
  rw [e1, e2]
  linarith

lemma assembled_spec (g : ℚ → ℚ) (nodes : List ℚ) (m : ℕ)
    (hlen : nodes.length = m + 3) (hsort : nodes.Pairwise (· ≤ ·))
    (b0 b1 : ℚ × ℚ) (interior : List (ℚ × ℚ))
    (hb0 : nodes.getD 0 0 ≤ b0.1 ∧ b0.1 ≤ nodes.getD 1 0 ∧ b0.2 = g b0.1)
    (hb1 : nodes.getD (m + 1) 0 ≤ b1.1 ∧ b1.1 ≤ nodes.getD (m + 2) 0 ∧
      b1.2 = g b1.1)
    (hint_len : interior.length = m)
    (hint : ∀ j, j < m → nodes.getD (j + 1) 0 ≤ (interior.getD j (0, 0)).1 ∧
      (interior.getD j (0, 0)).1 ≤ nodes.getD (j + 2) 0 ∧
      (interior.getD j (0, 0)).2 = g ((interior.getD j (0, 0)).1)) :
    ([b0] ++ interior ++ [b1]).length = m + 2 ∧
    (∀ j, j < m + 2 →
      nodes.getD j 0 ≤ (([b0] ++ interior ++ [b1]).getD j (0, 0)).1 ∧
      (([b0] ++ interior ++ [b1]).getD j (0, 0)).1 ≤ nodes.getD (j + 1) 0 ∧
      (([b0] ++ interior ++ [b1]).getD j (0, 0)).2 =
        g ((([b0] ++ interior ++ [b1]).getD j (0, 0)).1)) ∧
    List.Pairwise (fun p q => p.1 ≤ q.1) ([b0] ++ interior ++ [b1]) := by
  have hlen2 : ([b0] ++ interior ++ [b1]).length = m + 2 := by
    simp [hint_len]
  have hget : ∀ j, j < m + 2 → ([b0] ++ interior ++ [b1]).getD j (0, 0) =
      if j = 0 then b0 else if j < m + 1 then interior.getD (j - 1) (0, 0)
      else b1 := by
    intro j hj
    rcases Nat.eq_zero_or_pos j with h0 | hpos
    · subst h0
      rw [List.getD_append _ _ _ _
        (by rw [List.length_append, List.length_singleton, hint_len]; omega)]
      simp
    · rcases Nat.lt_or_ge j (m + 1) with hin | hout
      · rw [List.getD_append _ _ _ _
          (by rw [List.length_append, List.length_singleton, hint_len]; omega)]
        rw [List.getD_append_right _ _ _ _ (by rw [List.length_singleton]; omega)]
        simp only [List.length_singleton]
        rw [if_neg (by omega), if_pos hin]
      · have hj1 : j = m + 1 := by omega
        subst hj1
        rw [List.getD_append_right _ _ _ _
          (by rw [List.length_append, List.length_singleton, hint_len]; omega)]
        rw [if_neg (by omega), if_neg (by omega)]
        rw [List.length_append, List.length_singleton, hint_len]
        rw [show m + 1 - (1 + m) = 0 from by omega]
        rfl
  have hcont : ∀ j, j < m + 2 →
      nodes.getD j 0 ≤ (([b0] ++ interior ++ [b1]).getD j (0, 0)).1 ∧
      (([b0] ++ interior ++ [b1]).getD j (0, 0)).1 ≤ nodes.getD (j + 1) 0 ∧
      (([b0] ++ interior ++ [b1]).getD j (0, 0)).2 =
        g ((([b0] ++ interior ++ [b1]).getD j (0, 0)).1) := by
    intro j hj
    rw [hget j hj]
    rcases Nat.eq_zero_or_pos j with h0 | hpos
    · subst h0
      simp only [if_pos rfl]
      exact hb0
    · rcases Nat.lt_or_ge j (m + 1) with hin | hout
      · rw [if_neg (by omega), if_pos hin]
        obtain ⟨c1, c2, c3⟩ := hint (j - 1) (by omega)
        have ej : j - 1 + 1 = j := by omega
        have ej2 : j - 1 + 2 = j + 1 := by omega
        rw [ej] at c1
        rw [ej2] at c2
        exact ⟨c1, c2, c3⟩
      · have hj1 : j = m + 1 := by omega
        rw [if_neg (by omega), if_neg (by omega), hj1]
        exact hb1
  refine ⟨hlen2, hcont, ?_⟩
  exact pairwise_fst_of_contained hlen2 hlen hsort
    (fun j hj => ⟨(hcont j hj).1, (hcont j hj).2.1⟩)

lemma bisect_result_mem (g : ℚ → ℚ) (num_iter : ℕ) (L R : ℚ) (hLR : L ≤ R) :
    L ≤ ((bisect_step g)^[num_iter] ⟨L, (L + R) / 2, R, g ((L + R) / 2)⟩).z1 ∧
    ((bisect_step g)^[num_iter] ⟨L, (L + R) / 2, R, g ((L + R) / 2)⟩).z1 ≤ R ∧
    ((bisect_step g)^[num_iter] ⟨L, (L + R) / 2, R, g ((L + R) / 2)⟩).v =
      g (((bisect_step g)^[num_iter] ⟨L, (L + R) / 2, R, g ((L + R) / 2)⟩).z1) := by
  obtain ⟨c1, c2, c3, c4, c5⟩ := bisect_iter_inv g num_iter
    ⟨L, (L + R) / 2, R, g ((L + R) / 2)⟩ (by dsimp only; linarith)
    (by dsimp only; linarith) rfl
  dsimp only at c1 c4
  exact ⟨by linarith, by linarith, c5⟩

lemma golden_result_mem (gm : ℚ) (g : ℚ → ℚ) (hgm0 : 0 ≤ gm) (hgm1 : gm ≤ 1)
    (num_iter : ℕ) (L R : ℚ) (hLR : L ≤ R) :
    L ≤ ((golden_step gm g)^[num_iter]
      ⟨L, L + (R - L) * gm, R, g (L + (R - L) * gm)⟩).z1 ∧
    ((golden_step gm g)^[num_iter]
      ⟨L, L + (R - L) * gm, R, g (L + (R - L) * gm)⟩).z1 ≤ R ∧
    ((golden_step gm g)^[num_iter]
      ⟨L, L + (R - L) * gm, R, g (L + (R - L) * gm)⟩).v =
      g (((golden_step gm g)^[num_iter]
        ⟨L, L + (R - L) * gm, R, g (L + (R - L) * gm)⟩).z1) := by
  obtain ⟨c1, c2, c3, c4, c5⟩ := golden_iter_inv gm g hgm0 hgm1 num_iter
    ⟨L, L + (R - L) * gm, R, g (L + (R - L) * gm)⟩ (by dsimp only; nlinarith)
    (by dsimp only; nlinarith) rfl
  dsimp only at c1 c4
  exact ⟨by linarith, by linarith, c5⟩

lemma sample_row_mem (g : ℚ → ℚ) (a b : ℚ) (N : ℕ) (e : Bool) (hab : a ≤ b)
    (hN : 0 < N) :
    a ≤ (linspace a b N e).getD (argmaxIdx ((linspace a b N e).map g)) 0 ∧
    (linspace a b N e).getD (argmaxIdx ((linspace a b N e).map g)) 0 ≤ b ∧
    ((linspace a b N e).map g).getD (argmaxIdx ((linspace a b N e).map g)) 0 =
      g ((linspace a b N e).getD (argmaxIdx ((linspace a b N e).map g)) 0) := by
  have hrl : (linspace a b N e).length = N := linspace_length a b N e
  have hvl : ((linspace a b N e).map g).length = N := by
    rw [List.length_map, hrl]
  have hne : (linspace a b N e).map g ≠ [] := by
    intro h
    rw [h] at hvl
    simp at hvl
    omega
  have hkk : argmaxIdx ((linspace a b N e).map g) < N := by
    have := argmaxIdx_lt hne
    rw [hvl] at this
    exact this
  obtain ⟨m1, m2⟩ := linspace_mem a b N e _ hab hkk
  exact ⟨m1, m2, getD_map_fun (by rw [hrl]; exact hkk)⟩

end LocalMaxLemmas

/-- C6: for an error function `g` and an ordered node array of length `m + 3`
(so `m` interior sub-intervals), each local-maximum search strategy -
bisection-based, golden-section (for every golden parameter in `[0, 1]`,
covering the double-precision value of `(3 - sqrt 5)/2` used by the source),
and sampling with at least one point per sub-interval - returns exactly
`m + 2` (location, value) pairs, including the two boundary-interval extrema,
ordered left to right, with each location lying in its own sub-interval and
each value equal to `g` at its location. -/
theorem local_maxima_return (gm : ℚ) (g : ℚ → ℚ) (nodes : List ℚ)
    (m num_iter N : ℕ) (hlen : nodes.length = m + 3)
    (hsort : nodes.Pairwise (· ≤ ·)) (hgm0 : 0 ≤ gm) (hgm1 : gm ≤ 1)
    (hN : 0 < N) :
    ((local_maxima_bisect gm g nodes num_iter).length = m + 2 ∧
      (∀ j, j < m + 2 →
        nodes.getD j 0 ≤ ((local_maxima_bisect gm g nodes num_iter).getD j (0, 0)).1 ∧
        ((local_maxima_bisect gm g nodes num_iter).getD j (0, 0)).1 ≤
          nodes.getD (j + 1) 0 ∧
        ((local_maxima_bisect gm g nodes num_iter).getD j (0, 0)).2 =
          g (((local_maxima_bisect gm g nodes num_iter).getD j (0, 0)).1)) ∧
      List.Pairwise (fun p q => p.1 ≤ q.1)
        (local_maxima_bisect gm g nodes num_iter)) ∧
    ((local_maxima_golden gm g nodes num_iter).length = m + 2 ∧
      (∀ j, j < m + 2 →
        nodes.getD j 0 ≤ ((local_maxima_golden gm g nodes num_iter).getD j (0, 0)).1 ∧
        ((local_maxima_golden gm g nodes num_iter).getD j (0, 0)).1 ≤
          nodes.getD (j + 1) 0 ∧
        ((local_maxima_golden gm g nodes num_iter).getD j (0, 0)).2 =
          g (((local_maxima_golden gm g nodes num_iter).getD j (0, 0)).1)) ∧
      List.Pairwise (fun p q => p.1 ≤ q.1)
        (local_maxima_golden gm g nodes num_iter)) ∧
    ((local_maxima_sample g nodes N).length = m + 2 ∧
      (∀ j, j < m + 2 →
        nodes.getD j 0 ≤ ((local_maxima_sample g nodes N).getD j (0, 0)).1 ∧
        ((local_maxima_sample g nodes N).getD j (0, 0)).1 ≤ nodes.getD (j + 1) 0 ∧
        ((local_maxima_sample g nodes N).getD j (0, 0)).2 =
          g (((local_maxima_sample g nodes N).getD j (0, 0)).1)) ∧
      List.Pairwise (fun p q => p.1 ≤ q.1) (local_maxima_sample g nodes N)) := by
  have hb : ∀ j k : ℕ, j ≤ k → k < nodes.length →
      nodes.getD j 0 ≤ nodes.getD k 0 :=
    fun j k hjk hk => sorted_getD_le hsort hjk hk
  have e1 : nodes.length - 3 = m := by omega
  have e2 : nodes.length - 2 = m + 1 := by omega
  have e3 : nodes.length - 1 = m + 2 := by omega
  refine ⟨?_, ?_, ?_⟩
  · -- bisection strategy
    have hform : local_maxima_bisect gm g nodes num_iter =
        [boundary_search gm g (nodes.getD 0 0) (nodes.getD 1 0) 3] ++
        (List.range m).map (fun j =>
          (((bisect_step g)^[num_iter] ⟨nodes.getD (j + 1) 0,
              (nodes.getD (j + 1) 0 + nodes.getD (j + 2) 0) / 2,
              nodes.getD (j + 2) 0,
              g ((nodes.getD (j + 1) 0 + nodes.getD (j + 2) 0) / 2)⟩).z1,
            ((bisect_step g)^[num_iter] ⟨nodes.getD (j + 1) 0,
              (nodes.getD (j + 1) 0 + nodes.getD (j + 2) 0) / 2,
              nodes.getD (j + 2) 0,
              g ((nodes.getD (j + 1) 0 + nodes.getD (j + 2) 0) / 2)⟩).v)) ++
        [boundary_search gm g (nodes.getD (m + 1) 0) (nodes.getD (m + 2) 0) 3] := by
      simp only [local_maxima_bisect, e1, e2, e3]
    rw [hform]
    exact assembled_spec g nodes m hlen hsort _ _ _
      (boundary_search_inv gm g hgm0 hgm1 _ _ 3 (hb 0 1 (by omega) (by omega)))
      (boundary_search_inv gm g hgm0 hgm1 _ _ 3
        (hb (m + 1) (m + 2) (by omega) (by omega)))
      (by rw [List.length_map, List.length_range])
      (fun j hj => by
        rw [getD_map_range hj]
        exact bisect_result_mem g num_iter _ _
          (hb (j + 1) (j + 2) (by omega) (by omega)))
  · -- golden-section strategy
    have hform : local_maxima_golden gm g nodes num_iter =
        [boundary_search gm g (nodes.getD 0 0) (nodes.getD 1 0) 3] ++
        (List.range m).map (fun j =>
          (((golden_step gm g)^[num_iter] ⟨nodes.getD (j + 1) 0,
              nodes.getD (j + 1) 0 +
                (nodes.getD (j + 2) 0 - nodes.getD (j + 1) 0) * gm,
              nodes.getD (j + 2) 0,
              g (nodes.getD (j + 1) 0 +
                (nodes.getD (j + 2) 0 - nodes.getD (j + 1) 0) * gm)⟩).z1,
            ((golden_step gm g)^[num_iter] ⟨nodes.getD (j + 1) 0,
              nodes.getD (j + 1) 0 +
                (nodes.getD (j + 2) 0 - nodes.getD (j + 1) 0) * gm,
              nodes.getD (j + 2) 0,
              g (nodes.getD (j + 1) 0 +
                (nodes.getD (j + 2) 0 - nodes.getD (j + 1) 0) * gm)⟩).v)) ++
        [boundary_search gm g (nodes.getD (m + 1) 0) (nodes.getD (m + 2) 0) 3] := by
      simp only [local_maxima_golden, e1, e2, e3]
    rw [hform]
    exact assembled_spec g nodes m hlen hsort _ _ _
      (boundary_search_inv gm g hgm0 hgm1 _ _ 3 (hb 0 1 (by omega) (by omega)))
      (boundary_search_inv gm g hgm0 hgm1 _ _ 3
        (hb (m + 1) (m + 2) (by omega) (by omega)))
      (by rw [List.length_map, List.length_range])
      (fun j hj => by
        rw [getD_map_range hj]
        exact golden_result_mem gm g hgm0 hgm1 num_iter _ _
          (hb (j + 1) (j + 2) (by omega) (by omega)))
  · -- sampling strategy
    have hslen : (local_maxima_sample g nodes N).length = m + 2 := by
      simp only [local_maxima_sample]
      rw [List.length_map, List.length_range, e3]
    have hscont : ∀ j, j < m + 2 →
        nodes.getD j 0 ≤ ((local_maxima_sample g nodes N).getD j (0, 0)).1 ∧
        ((local_maxima_sample g nodes N).getD j (0, 0)).1 ≤ nodes.getD (j + 1) 0 ∧
        ((local_maxima_sample g nodes N).getD j (0, 0)).2 =
          g (((local_maxima_sample g nodes N).getD j (0, 0)).1) := by
      intro j hj
      simp only [local_maxima_sample]
      rw [getD_map_range (by omega : j < nodes.length - 1)]
      exact sample_row_mem g _ _ N _ (hb j (j + 1) (by omega) (by omega)) hN
    exact ⟨hslen, hscont, pairwise_fst_of_contained hslen hlen hsort
      (fun j hj => ⟨(hscont j hj).1, (hscont j hj).2.1⟩)⟩

/-- Concrete instance of `local_maxima_return` with one interior interval:
all three strategies return `3 = 1 + 2` pairs. -/
theorem local_maxima_return_witness :
    (([(0 : ℚ), 1, 2, 3]).length = 1 + 3 ∧
      ([(0 : ℚ), 1, 2, 3]).Pairwise (· ≤ ·) ∧
      (0 : ℚ) ≤ 1 / 3 ∧ (1 / 3 : ℚ) ≤ 1 ∧ 0 < 1) ∧
    (local_maxima_bisect (1 / 3) (fun x => x) [0, 1, 2, 3] 1).length = 1 + 2 ∧
    (local_maxima_golden (1 / 3) (fun x => x) [0, 1, 2, 3] 1).length = 1 + 2 ∧
    (local_maxima_sample (fun x => x) [0, 1, 2, 3] 1).length = 1 + 2 := by
  have h := local_maxima_return (1 / 3) (fun x => x) [0, 1, 2, 3] 1 1 1
    (by decide) (by norm_num [List.pairwise_cons]) (by norm_num) (by norm_num)
    (by decide)
  exact ⟨⟨by decide, by norm_num [List.pairwise_cons], by norm_num, by norm_num,
    by decide⟩, h.1.1, h.2.1.1, h.2.2.1⟩

end Baryrat
